import Mathlib

/-!
Verification of the finite-automaton core of the LexVii repository
(`src/dfa_visualizer.py`, with `Token` from `src/lexer.py`).

Embedding conventions:
* Python `DFAState` objects are records; an object *reference* is modelled as
  an index into a list of records (`store`).  `state.transitions` is a dict
  from symbol to a state object, modelled as an association list from the
  symbol to the index of the target object.
* The visualizer's `self.states` dict (name -> state object) is modelled as an
  association list `List (String × Nat)` of (key, object index) pairs in
  insertion order; Python dict assignment to an existing key keeps the key's
  position and replaces the value, which `dictInsert` reproduces.
* Python `set` iteration order is unspecified; wherever the source iterates a
  set we fix the first-occurrence order of the underlying list (`List.filter`
  together with deduplication).  No proved property depends on this order.
* The `while new_partitions != partitions` loop of `minimize_dfa` is embedded
  as `refineLoop` with explicit fuel; the source's extra no-op round caused by
  comparing a list of sets with a list of lists does not change the returned
  fixed point, and the fuel is proved sufficient (`refine_loop_termination`).
* Drawing, layout, highlighting and Tk calls are presentation-only and are
  omitted; the accept/reject messages printed by `step_animation` are modelled
  as an `Option Bool` side channel returned next to the new state.
-/

/-- `Token` from `src/lexer.py` (lines 5-10). -/
structure Token where
  type : String
  value : String
  line : Nat
  column : Nat
deriving Repr, DecidableEq

/-- `DFAState` from `src/dfa_visualizer.py` (lines 6-11).  The visual
`position` attribute is excluded.  `transitions` maps a symbol to the index of
the target state object. -/
structure DFAState where
  name : String
  is_accepting : Bool
  transitions : List (String × Nat)
deriving Repr, DecidableEq

/-- Dereference a state-object index.  Python attribute access on a valid
reference; the default is never reached for well-formed automata. -/
def objAt (store : List DFAState) (i : Nat) : DFAState :=
  store[i]?.getD ⟨"", false, []⟩

/-- `state.transitions.get(symbol)`: dictionary lookup on the transition
association list. -/
def transLookup (s : DFAState) (sym : String) : Option Nat :=
  (s.transitions.find? (fun p => p.1 = sym)).map (fun p => p.2)

/-- The fields of `DFAVisualizer` that the automaton core reads and writes
(`src/dfa_visualizer.py` lines 27-51): the state dict, the start/current
state references, the animation cursor and inputs, and the selected state of
the customization panel. -/
structure DFAVisualizer where
  store : List DFAState
  states : List (String × Nat)
  start_state : Nat
  current_state : Option Nat
  animation_step : Nat
  animation_sequence : List String
  tokens : List Token
  selected_state : Option Nat
deriving Repr, DecidableEq

/-- `reset_animation` (lines 536-545): cursor back to 0, current state back to
the start state.  Highlight manipulation is visual only. -/
def reset_animation (v : DFAVisualizer) : DFAVisualizer :=
  { v with animation_step := 0, current_state := some v.start_state }

/-- One current-state update of `step_animation` (lines 502-510): a `None`
current state is first replaced by the start state, then the transition for
the symbol is looked up; a missing transition sets the current state to
`None`. -/
def stepOnce (store : List DFAState) (start : Nat) (c : Option Nat)
    (sym : String) : Option Nat :=
  transLookup (objAt store (c.getD start)) sym

/-- The acceptance check of `step_animation` (lines 531-534):
`self.current_state and self.current_state.is_accepting`. -/
def acceptOf (store : List DFAState) (c : Option Nat) : Bool :=
  match c with
  | some i => (objAt store i).is_accepting
  | none => false

/-- `step_animation` (lines 480-534).  Returns the updated visualizer and the
verdict it reports at this step (`none` when no accept/reject message is
printed).  Editor-highlight side effects are omitted. -/
def step_animation (v : DFAVisualizer) : DFAVisualizer × Option Bool :=
  if v.animation_sequence = [] ∨ v.tokens = [] then (v, none)
  else if v.animation_sequence.length ≤ v.animation_step then
    (reset_animation v, none)
  else
    let token_value := v.animation_sequence.getD v.animation_step ""
    let c := stepOnce v.store v.start_state v.current_state token_value
    let step := v.animation_step + 1
    let verdict : Option Bool :=
      if v.animation_sequence.length ≤ step ∨ c = none then
        some (acceptOf v.store c)
      else none
    ({ v with current_state := c, animation_step := step }, verdict)

/-- Driving `step_animation` through a whole symbol sequence: the current
state after stepping each symbol in turn starting from a given current
state. -/
def runSteps (store : List DFAState) (start : Nat) (c : Option Nat) :
    List String → Option Nat
  | [] => c
  | sym :: w => runSteps store start (stepOnce store start c sym) w

/-- The verdict reported once the whole sequence has been stepped through
after a reset: `step_animation`'s final accept/reject message. -/
def simAccept (store : List DFAState) (start : Nat) (w : List String) : Bool :=
  acceptOf store (runSteps store start (some start) w)

/-- `update_dfa` (lines 316-346): store the tokens, clear the state dict,
create a fresh `START` state, one accepting state per distinct token type
with a transition from the start, and reset the animation.  Fresh objects are
appended to the store so old references stay distinct from the new states. -/
def update_dfa (v : DFAVisualizer) (tokens : List Token) : DFAVisualizer :=
  let types := (tokens.map (fun t => t.type)).dedup
  let base := v.store.length
  let startObj : DFAState :=
    ⟨"START", false, types.enum.map (fun p => (p.2, base + 1 + p.1))⟩
  let typeObjs : List DFAState := types.map (fun ty => ⟨ty, true, []⟩)
  reset_animation
    { v with
      tokens := tokens
      store := v.store ++ startObj :: typeObjs
      states :=
        ("START", base) :: types.enum.map (fun p => (p.2, base + 1 + p.1))
      start_state := base }

/-- The transition purge of `_delete_state` (lines 149-150): every state
object among the dict values has its transitions to the selected object
removed; the store is rebuilt index by index (`k` is the index of the head of
the remaining store suffix). -/
def stripTargets (sel : Nat) (vals : List Nat) : Nat → List DFAState → List DFAState
  | _, [] => []
  | k, s :: rest =>
    (if k ∈ vals then
      { s with transitions := s.transitions.filter (fun q => ¬ q.2 = sel) }
     else s) :: stripTargets sel vals (k + 1) rest

/-- `_delete_state` (lines 144-155): if a state other than the start state is
selected, drop every transition (in the states of the dict) that targets the
selected object, then delete the dict entry under the selected object's name
and clear the selection. -/
def delete_state (v : DFAVisualizer) : DFAVisualizer :=
  match v.selected_state with
  | none => v
  | some sel =>
    if sel = v.start_state then v
    else
      let selName := (objAt v.store sel).name
      { v with
        store := stripTargets sel (v.states.map (fun e => e.2)) 0 v.store
        states := v.states.filter (fun e => ¬ e.1 = selName)
        selected_state := none }

/-! Minimizer (`minimize_dfa`, `src/dfa_visualizer.py` lines 631-761) and the
start-state relocation of `_on_minimize_button_click` (lines 613-629). -/

/-- The set of all transition symbols of the automaton (lines 633-636),
iterated over the values of the state dict. -/
def symbolsOf (store : List DFAState) (vals : List Nat) : List String :=
  (vals.flatMap (fun i => (objAt store i).transitions.map (fun p => p.1))).dedup

/-- Code-point lexicographic comparison of character lists, the order Python
uses to compare strings. -/
def charsLt : List Char → List Char → Bool
  | [], [] => false
  | [], _ :: _ => true
  | _ :: _, [] => false
  | c :: cs, d :: ds =>
    if c.toNat < d.toNat then true
    else if d.toNat < c.toNat then false
    else charsLt cs ds

/-- String comparison by code points, as in Python. -/
def strLt (a b : String) : Bool := charsLt a.data b.data

/-- Stable insertion into an ascending list, mirroring Python `sorted`. -/
def insertSorted (x : String) : List String → List String
  | [] => [x]
  | y :: ys => if strLt y x then y :: insertSorted x ys else x :: y :: ys

/-- Ascending sort of a list of strings, mirroring Python `sorted`. -/
def sortStrings : List String → List String
  | [] => []
  | x :: xs => insertSorted x (sortStrings xs)

/-- `sorted(list(alphabet))` (line 661): the sorted symbol list used for the
signature keys. -/
def sortedAlphabet (store : List DFAState) (vals : List Nat) : List String :=
  sortStrings (symbolsOf store vals)

/-- Index of the first block of the partition list containing a state
(the `for i, p in enumerate(partitions)` search of lines 666-669). -/
def blockSearch : List (List Nat) → Nat → Option Nat
  | [], _ => none
  | b :: P, t => if t ∈ b then some 0 else (blockSearch P t).map (fun k => k + 1)

/-- One entry of a state's signature (lines 662-670): the index of the block
containing the target of the transition on a symbol, or `-1` when the state
has no transition on that symbol or the target lies in no block. -/
def transKey (store : List DFAState) (P : List (List Nat)) (s : Nat)
    (sym : String) : Int :=
  match transLookup (objAt store s) sym with
  | none => -1
  | some t =>
    match blockSearch P t with
    | none => -1
    | some k => (k : Int)

/-- The full signature of a state over the sorted alphabet (lines 660-672). -/
def signatureOf (store : List DFAState) (alpha : List String)
    (P : List (List Nat)) (s : Nat) : List Int :=
  alpha.map (fun sym => transKey store P s sym)

/-- Insert a state into the group for its signature key, preserving the
first-occurrence order of keys and the insertion order of members, exactly as
a Python dict of lists (lines 674-676). -/
def insertGrouped (k : List Int) (s : Nat) :
    List (List Int × List Nat) → List (List Int × List Nat)
  | [] => [(k, [s])]
  | (k', g) :: rest =>
    if k' = k then (k', g ++ [s]) :: rest else (k', g) :: insertGrouped k s rest

/-- Group the members of one block by signature; the groups come out in key
first-occurrence order (`groups.values()`, line 679). -/
def groupByKey (f : Nat → List Int) (b : List Nat) : List (List Nat) :=
  (b.foldl (fun acc s => insertGrouped (f s) s acc) []).map (fun p => p.2)

/-- One refinement round over the partition list with a fixed signature
function: an empty block is appended back unchanged (lines 652-654), a
non-empty block is replaced by its signature groups (line 679). -/
def refineAux (f : Nat → List Int) : List (List Nat) → List (List Nat)
  | [] => []
  | b :: P => (if b = [] then [b] else groupByKey f b) ++ refineAux f P

/-- One full refinement round (lines 650-679): signatures are computed against
the current partition list. -/
def refineOnce (store : List DFAState) (alpha : List String)
    (P : List (List Nat)) : List (List Nat) :=
  refineAux (fun s => signatureOf store alpha P s) P

/-- The `while new_partitions != partitions` loop (lines 645-679), embedded
with fuel; `refine_loop_termination` proves the fuel below suffices to reach
the fixed point the Python loop stops at. -/
def refineLoop (store : List DFAState) (alpha : List String) :
    Nat → List (List Nat) → List (List Nat)
  | 0, P => P
  | fuel + 1, P =>
    let P' := refineOnce store alpha P
    if P' = P then P else refineLoop store alpha fuel P'

/-- The initial partition (lines 638-642): the non-accepting states then the
accepting states, in dict-value order with duplicate references removed
(Python builds two sets of objects). -/
def initPartition (store : List DFAState) (vals : List Nat) :
    List (List Nat) :=
  [(vals.filter (fun i => ¬ (objAt store i).is_accepting)).dedup,
   (vals.filter (fun i => (objAt store i).is_accepting)).dedup]

/-- The partition list at the fixed point of the refinement loop. -/
def finalPartition (store : List DFAState) (vals : List Nat) :
    List (List Nat) :=
  refineLoop store (sortedAlphabet store vals) (vals.length + 1)
    (initPartition store vals)

/-- The non-empty blocks, in order: the blocks skipped by neither creation
loop (lines 688-690 and 715-717). -/
def liveBlocks (store : List DFAState) (vals : List Nat) : List (List Nat) :=
  (finalPartition store vals).filter (fun b => ¬ b = [])

/-- Python `", ".join` (line 694). -/
def commaJoin : List String → String
  | [] => ""
  | [x] => x
  | x :: xs => x ++ ", " ++ commaJoin xs

/-- The generated name of a minimized state (lines 692-694): the sorted,
comma-joined names of the block's members. -/
def blockName (store : List DFAState) (b : List Nat) : String :=
  commaJoin (sortStrings (b.map (fun i => (objAt store i).name)))

/-- The minimized state object created for one block (lines 699-702 and
714-726): accepting iff any member is accepting; transitions from an
arbitrary member (the first), each kept only when its target's block is
found, retargeted to the index of that block. -/
def mkMinState (store : List DFAState) (Q : List (List Nat)) (b : List Nat) :
    DFAState :=
  ⟨blockName store b,
   b.any (fun i => (objAt store i).is_accepting),
   (objAt store (b.headD 0)).transitions.filterMap (fun p =>
     (blockSearch Q p.2).map (fun j => (p.1, j)))⟩

/-- The store of minimized state objects, one per non-empty block in creation
order; an index into this list is a reference to the minimized object. -/
def minimizedBase (store : List DFAState) (vals : List Nat) :
    List DFAState :=
  (liveBlocks store vals).map (fun b => mkMinState store (liveBlocks store vals) b)

/-- Python dict assignment `d[k] = v`: replace the value at an existing key in
place, or append a new entry. -/
def dictInsert (k : String) (v : Nat) :
    List (String × Nat) → List (String × Nat)
  | [] => [(k, v)]
  | (k', v') :: d =>
    if k' = k then (k, v) :: d else (k', v') :: dictInsert k v d

/-- Python dict lookup `d[k]` / `k in d`. -/
def dictGet (k : String) : List (String × Nat) → Option Nat
  | [] => none
  | (k', v) :: d => if k' = k then some v else dictGet k d

/-- Python `del d[k]` (the key is always present where the source uses it). -/
def dictDel (k : String) : List (String × Nat) → List (String × Nat)
  | [] => []
  | (k', v) :: d => if k' = k then d else (k', v) :: dictDel k d

/-- The `minimized_states` dict as first built by the creation loop
(lines 681-712): one insertion per non-empty block under its generated
name. -/
def minimizedDict0 (store : List DFAState) (vals : List Nat) :
    List (String × Nat) :=
  ((liveBlocks store vals).enum).foldl
    (fun d p => dictInsert (blockName store p.2) p.1 d) []

/-- The result of `minimize_dfa`: the minimized state objects, the
`minimized_states` dict that is returned, and the `new_start_state` local
reference computed on lines 728-733. -/
structure MinResult where
  store : List DFAState
  dict : List (String × Nat)
  newStart : Option Nat
deriving Repr, DecidableEq

/-- `minimize_dfa` (lines 631-761).  After building the minimized states and
their dict, the start block's object is renamed to the literal `"START"`
unless a block named `"START"` already maps to it (lines 728-755); renaming
mutates the object in the store, rewrites the dict entry under `"START"`, and
in the first branch deletes the entry under the start object's former name. -/
def minimize_dfa (store : List DFAState) (vals : List Nat) (start : Nat) :
    MinResult :=
  let Q := liveBlocks store vals
  let base := minimizedBase store vals
  let d0 := minimizedDict0 store vals
  match blockSearch Q start with
  | none => ⟨base, d0, none⟩
  | some j1 =>
    match dictGet "START" d0 with
    | some j0 =>
      if j0 = j1 then ⟨base, d0, some j1⟩
      else
        let orig := (objAt base j1).name
        ⟨base.set j1 { objAt base j1 with name := "START" },
         dictDel orig (dictInsert "START" j1 d0),
         some j1⟩
    | none =>
      ⟨base.set j1 { objAt base j1 with name := "START" },
       d0 ++ [("START", j1)],
       some j1⟩

/-- The start-state relocation of `_on_minimize_button_click` (lines 620-625):
scan the dict values for a state object named `"START"`; fall back to the
first value when none is named `"START"`. -/
def clickStart (m : MinResult) : Option Nat :=
  match (m.dict.map (fun e => e.2)).find?
      (fun j => (objAt m.store j).name = "START") with
  | some j => some j
  | none => (m.dict.map (fun e => e.2)).head?

/-- `len(self.states)` after the button handler installs the minimized
dict. -/
def stateCount (m : MinResult) : Nat :=
  m.dict.length

/-- The second minimization of the idempotence property: the button handler
installs `m.dict` as `self.states` and the `"START"`-scan result as
`self.start_state`, and `minimize_dfa` is invoked again on that state. -/
def minimizeAgain (store : List DFAState) (vals : List Nat) (start : Nat) :
    MinResult :=
  let m := minimize_dfa store vals start
  minimize_dfa m.store (m.dict.map (fun e => e.2)) ((clickStart m).getD 0)

/-- Simulating a sequence on the minimized automaton: the visualizer steps on
the minimized store from the start state located by the button handler. -/
def simAcceptMin (store : List DFAState) (vals : List Nat) (start : Nat)
    (w : List String) : Bool :=
  let m := minimize_dfa store vals start
  simAccept m.store ((clickStart m).getD 0) w

/-- Well-formedness of an automaton as held by the visualizer, per the spec's
data-model invariants: state references valid and closed under transitions,
the start state present, distinct objects with distinct names in the dict
values, and per-state deterministic (duplicate-free) transition keys. -/
abbrev WF (store : List DFAState) (vals : List Nat) (start : Nat) : Prop :=
  (∀ i ∈ vals, i < store.length) ∧
  (∀ i ∈ vals, ∀ p ∈ (objAt store i).transitions, p.2 ∈ vals) ∧
  start ∈ vals ∧
  vals.Nodup ∧
  (vals.map (fun i => (objAt store i).name)).Nodup ∧
  (∀ i ∈ vals, ((objAt store i).transitions.map (fun p => p.1)).Nodup)

/-- Structural invariant of the partition lists handled by the refinement
loop: every state reference occurs in exactly one block (the flattened list
is duplicate-free and has the dict values as members), at most the two
initial blocks are empty, and each block is homogeneous in acceptance. -/
def PartGood (store : List DFAState) (vals : List Nat)
    (P : List (List Nat)) : Prop :=
  P.flatten.Nodup ∧
  (∀ i, i ∈ P.flatten ↔ i ∈ vals) ∧
  P.count [] ≤ 2 ∧
  (∀ b ∈ P, ∀ s ∈ b, ∀ t ∈ b,
    (objAt store s).is_accepting = (objAt store t).is_accepting)

/-! Concrete automata and visualizer states used by the witnesses and
counterexamples below. -/

/-- A two-state automaton: `START --a--> P` with `P` accepting. -/
def exStoreAB : List DFAState :=
  [⟨"START", false, [("a", 1)]⟩, ⟨"P", true, []⟩]

/-- A sample token. -/
def exToken : Token := ⟨"t", "a", 1, 0⟩

/-- Visualizer over `exStoreAB`, reset, with the one-symbol sequence
`["a"]`. -/
def exV1 : DFAVisualizer :=
  ⟨exStoreAB, [("START", 0), ("P", 1)], 0, some 0, 0, ["a"], [exToken], none⟩

/-- Visualizer over `exStoreAB`, reset, with the sequence `["c", "a"]` whose
first symbol has no transition from the start state. -/
def exV3 : DFAVisualizer :=
  ⟨exStoreAB, [("START", 0), ("P", 1)], 0, some 0, 0, ["c", "a"],
   [exToken, exToken], none⟩

/-- Visualizer with an accepting start state and an empty symbol sequence. -/
def exV4 : DFAVisualizer :=
  ⟨[⟨"START", true, []⟩], [("START", 0)], 0, some 0, 0, [], [], none⟩

/-- A single non-accepting state, no transitions. -/
def exStoreS : List DFAState := [⟨"S", false, []⟩]

/-- Three states without transitions: `START` and `D` non-accepting (hence
merged by minimization), `X` accepting. -/
def exStore3 : List DFAState :=
  [⟨"START", false, []⟩, ⟨"D", false, []⟩, ⟨"X", true, []⟩]

/-- Scenario A of the spec: `START --a--> A`, `START --b--> B`, both `A` and
`B` accepting. -/
def exStoreA : List DFAState :=
  [⟨"START", false, [("a", 1), ("b", 2)]⟩, ⟨"A", true, []⟩, ⟨"B", true, []⟩]

/-- Visualizer over `exStoreA` with the non-start state `B` selected for
deletion. -/
def exV7 : DFAVisualizer :=
  ⟨exStoreA, [("START", 0), ("A", 1), ("B", 2)], 0, some 0, 0, [], [], some 2⟩

/-! General lemmas and claim theorems. -/

theorem objAt_append_length (l r : List DFAState) (s : DFAState) :
    objAt (l ++ s :: r) l.length = s := by
  simp [objAt, List.getElem?_append_right (Nat.le_refl l.length)]

/-- Claim C10: rebuilding the automaton from a token sequence always leaves
the simulator reset: after `update_dfa`, the cursor is 0 and the current
state is the freshly created start state (a new object, named `START`,
allocated past every pre-existing one), for every token list and every prior
visualizer state. -/
theorem update_dfa_resets_simulator (v : DFAVisualizer) (tokens : List Token) :
    (update_dfa v tokens).animation_step = 0 ∧
    (update_dfa v tokens).current_state =
      some (update_dfa v tokens).start_state ∧
    (update_dfa v tokens).start_state = v.store.length ∧
    (objAt (update_dfa v tokens).store (update_dfa v tokens).start_state).name
      = "START" := by
  refine ⟨rfl, rfl, rfl, ?_⟩
  show (objAt (v.store ++ _ :: _) v.store.length).name = "START"
  rw [objAt_append_length]

/-- Claim C4 (counterexample): on the automaton whose start state is
accepting, the claim demands that simulating the empty sequence yields the
verdict accept; instead a step with the empty sequence is a no-op that
reports no verdict at all. -/
theorem empty_sequence_no_verdict_cex :
    (objAt exV4.store exV4.start_state).is_accepting = true ∧
    exV4.animation_sequence = [] ∧
    step_animation exV4 = (exV4, none) := by decide

/-- Claim C4 (amended): a `step_animation` call with an empty symbol sequence
(or an empty token list) is a no-op: no verdict is ever produced and the
cursor and current state stay unchanged, regardless of the start state's
acceptance. -/
theorem empty_sequence_step_noop (v : DFAVisualizer)
    (h : v.animation_sequence = [] ∨ v.tokens = []) :
    step_animation v = (v, none) := by
  simp [step_animation, h]

/-- Witness for `empty_sequence_step_noop` at `exV4`. -/
theorem empty_sequence_step_noop_witness :
    step_animation exV4 = (exV4, none) :=
  empty_sequence_step_noop exV4 (Or.inl rfl)

/-- Claim C2 (counterexample): stepping `exV1` consumes its one symbol and
halts with verdict accept at cursor 1; the claim demands that a further step
leave state, cursor and verdict unchanged, but the further step resets the
cursor to 0, moves the current state back to the start, and reports no
verdict. -/
theorem halted_not_terminal_cex :
    (step_animation exV1).1.animation_step = 1 ∧
    (step_animation exV1).2 = some true ∧
    (step_animation (step_animation exV1).1).1.animation_step = 0 ∧
    (step_animation (step_animation exV1).1).1.current_state = some 0 ∧
    (step_animation (step_animation exV1).1).2 = none ∧
    ¬ step_animation (step_animation exV1).1 =
        ((step_animation exV1).1, (step_animation exV1).2) := by decide

/-- Claim C2 (amended): once the cursor has passed the end of the symbol
sequence, a further `step_animation` call is not a verdict-re-reporting
no-op: it resets the animation (cursor 0, current state back to start) and
reports nothing. -/
theorem step_past_end_resets (v : DFAVisualizer)
    (h1 : ¬ v.animation_sequence = []) (h2 : ¬ v.tokens = [])
    (h3 : v.animation_sequence.length ≤ v.animation_step) :
    step_animation v = (reset_animation v, none) := by
  simp [step_animation, h1, h2, h3]

/-- Witness for `step_past_end_resets` at the halted state reached from
`exV1`. -/
theorem step_past_end_resets_witness :
    step_animation (step_animation exV1).1 =
      (reset_animation (step_animation exV1).1, none) :=
  step_past_end_resets (step_animation exV1).1 (by decide) (by decide)
    (by decide)

/-- Claim C3 (counterexample): on `exV3` the first symbol `"c"` has no
transition from the start state, and the step reports reject; but the
rejection is not permanent and the missing symbol's cursor slot is consumed:
the very next step restarts from the start state, consumes `"a"`, and
reports verdict accept. -/
theorem missing_transition_not_permanent_cex :
    (step_animation exV3).2 = some false ∧
    (step_animation exV3).1.current_state = none ∧
    (step_animation exV3).1.animation_step = 1 ∧
    (step_animation (step_animation exV3).1).2 = some true ∧
    (step_animation (step_animation exV3).1).1.current_state = some 1 := by
  decide

/-- Claim C3 (amended): a step that hits a missing transition immediately
reports reject for that step and clears the current state, but it also
advances the cursor past the missing symbol, and the halt is not permanent:
a subsequent step with the cursor still inside the sequence restarts the
lookup from the start state. -/
theorem missing_transition_step_behavior :
    (∀ v : DFAVisualizer, ¬ v.animation_sequence = [] → ¬ v.tokens = [] →
      v.animation_step < v.animation_sequence.length →
      stepOnce v.store v.start_state v.current_state
        (v.animation_sequence.getD v.animation_step "") = none →
      step_animation v =
        ({ v with current_state := none,
                  animation_step := v.animation_step + 1 }, some false)) ∧
    (∀ v : DFAVisualizer, ¬ v.animation_sequence = [] → ¬ v.tokens = [] →
      v.animation_step < v.animation_sequence.length →
      v.current_state = none →
      (step_animation v).1.current_state =
        transLookup (objAt v.store v.start_state)
          (v.animation_sequence.getD v.animation_step "")) := by
  constructor
  · intro v h1 h2 h3 h4
    simp only [List.getD_eq_getElem?_getD] at h4
    simp [step_animation, h1, h2, Nat.not_le.2 h3, h4, acceptOf]
  · intro v h1 h2 h3 h4
    simp [step_animation, h1, h2, Nat.not_le.2 h3, h4, stepOnce]

/-- Witness for `missing_transition_step_behavior` at `exV3`. -/
theorem missing_transition_step_behavior_witness :
    step_animation exV3 =
      ({ exV3 with current_state := none, animation_step := 1 }, some false) :=
  missing_transition_step_behavior.1 exV3 (by decide) (by decide) (by decide)
    (by decide)

theorem stripTargets_getElem? (sel : Nat) (vals : List Nat) :
    ∀ (store : List DFAState) (k i : Nat),
      (stripTargets sel vals k store)[i]? =
        (store[i]?).map (fun s =>
          if k + i ∈ vals then
            { s with transitions := s.transitions.filter (fun q => ¬ q.2 = sel) }
          else s) := by
  intro store
  induction store with
  | nil => intro k i; simp [stripTargets]
  | cons s rest ih =>
    intro k i
    cases i with
    | zero => simp [stripTargets]
    | succ n =>
      simp only [stripTargets, List.getElem?_cons_succ, ih (k + 1) n]
      have : k + 1 + n = k + (n + 1) := by omega
      rw [this]

theorem objAt_stripTargets (sel : Nat) (vals : List Nat)
    (store : List DFAState) (i : Nat) (h : i < store.length) (hi : i ∈ vals) :
    objAt (stripTargets sel vals 0 store) i =
      { objAt store i with
        transitions :=
          (objAt store i).transitions.filter (fun q => ¬ q.2 = sel) } := by
  have hs : store[i]? = some store[i] := List.getElem?_eq_getElem h
  simp [objAt, stripTargets_getElem?, hs, hi]

/-- Claim C7: removing a state equal to the current start is a no-op that
leaves the visualizer unchanged; removing any other present state removes its
dict entry together with every transition of a remaining state that targeted
it, and afterwards every transition target of a remaining state still
resolves to a present state. -/
theorem delete_state_spec (v : DFAVisualizer) (sel : Nat)
    (hsel : v.selected_state = some sel)
    (hkeys : (v.states.map (fun e => e.1)).Nodup)
    (hvalid : ∀ e ∈ v.states, e.2 < v.store.length)
    (hname : ∀ e ∈ v.states, (objAt v.store e.2).name = e.1)
    (hclosed : ∀ e ∈ v.states, ∀ p ∈ (objAt v.store e.2).transitions,
        p.2 ∈ v.states.map (fun e => e.2)) :
    (sel = v.start_state → delete_state v = v) ∧
    (¬ sel = v.start_state → sel ∈ v.states.map (fun e => e.2) →
      ¬ sel ∈ (delete_state v).states.map (fun e => e.2) ∧
      (∀ e ∈ (delete_state v).states,
        ∀ p ∈ (objAt (delete_state v).store e.2).transitions,
          ¬ p.2 = sel ∧ p.2 ∈ (delete_state v).states.map (fun e => e.2))) := by
  constructor
  · intro h
    simp [delete_state, hsel, h]
  · intro hne hmem
    obtain ⟨es, hes, hes2⟩ := List.mem_map.1 hmem
    have hesname : (objAt v.store sel).name = es.1 := by
      rw [← hes2]; exact hname es hes
    have hdel :
        delete_state v =
          { v with
            store := stripTargets sel (v.states.map (fun e => e.2)) 0 v.store
            states :=
              v.states.filter (fun e => ¬ e.1 = (objAt v.store sel).name)
            selected_state := none } := by
      simp [delete_state, hsel, hne]
    constructor
    · rw [hdel]
      intro hc
      obtain ⟨e, he, he2⟩ := List.mem_map.1 hc
      have he' := List.mem_filter.1 he
      have : e.1 = es.1 := by
        rw [← hesname, ← he2]; exact (hname e he'.1).symm
      have : ¬ e.1 = (objAt v.store sel).name := by
        simpa using he'.2
      rw [hesname] at this
      exact this ‹e.1 = es.1›
    · intro e he p hp
      rw [hdel] at he hp ⊢
      have he' := List.mem_filter.1 he
      have hev : e.2 ∈ v.states.map (fun e => e.2) :=
        List.mem_map.2 ⟨e, he'.1, rfl⟩
      rw [objAt_stripTargets sel _ v.store e.2 (hvalid e he'.1) hev] at hp
      have hp' := List.mem_filter.1 hp
      have hpne : ¬ p.2 = sel := by simpa using hp'.2
      refine ⟨hpne, ?_⟩
      have hpv : p.2 ∈ v.states.map (fun e => e.2) :=
        hclosed e he'.1 p hp'.1
      obtain ⟨e', he'', he''2⟩ := List.mem_map.1 hpv
      refine List.mem_map.2 ⟨e', List.mem_filter.2 ⟨he'', ?_⟩, he''2⟩
      simp only [decide_eq_true_eq]
      intro hk
      have : e' = es := by
        refine List.inj_on_of_nodup_map hkeys he'' hes ?_
        rw [hk, hesname]
      rw [this] at he''2
      rw [hes2] at he''2
      exact hpne he''2.symm

/-- Witness for `delete_state_spec`: deleting the selected non-start state
`B` of `exV7` removes its entry and the transition on `"b"` targeting it. -/
theorem delete_state_spec_witness :
    ¬ (2 : Nat) ∈ (delete_state exV7).states.map (fun e => e.2) ∧
    (∀ e ∈ (delete_state exV7).states,
      ∀ p ∈ (objAt (delete_state exV7).store e.2).transitions,
        ¬ p.2 = 2 ∧ p.2 ∈ (delete_state exV7).states.map (fun e => e.2)) :=
  (delete_state_spec exV7 2 rfl (by decide) (by decide) (by decide)
    (by decide)).2 (by decide) (by decide)

/-! Lemmas on signature grouping (`insertGrouped`, `groupByKey`). -/

theorem insertGrouped_length_le (k : List Int) (s : Nat)
    (acc : List (List Int × List Nat)) :
    acc.length ≤ (insertGrouped k s acc).length := by
  induction acc with
  | nil => simp [insertGrouped]
  | cons p rest ih =>
    obtain ⟨k', g⟩ := p
    by_cases h : k' = k
    · simp [insertGrouped, h]
    · simpa [insertGrouped, h] using ih

theorem foldl_insertGrouped_length_le (f : Nat → List Int) (b : List Nat) :
    ∀ acc, acc.length ≤
      (b.foldl (fun a s => insertGrouped (f s) s a) acc).length := by
  induction b with
  | nil => intro acc; simp
  | cons s b ih =>
    intro acc
    exact le_trans (insertGrouped_length_le (f s) s acc) (ih _)

theorem foldl_insertGrouped_single (f : Nat → List Int) :
    ∀ (b : List Nat) (k : List Int) (g0 : List Nat) (k' : List Int)
      (g : List Nat),
      b.foldl (fun a s => insertGrouped (f s) s a) [(k, g0)] = [(k', g)] →
      k' = k ∧ g = g0 ++ b ∧ ∀ s ∈ b, f s = k := by
  intro b
  induction b with
  | nil =>
    intro k g0 k' g h
    simp only [List.foldl_nil, List.cons.injEq, Prod.mk.injEq] at h
    exact ⟨h.1.1.symm, by simp [h.1.2.symm], by simp⟩
  | cons s b ih =>
    intro k g0 k' g h
    rw [List.foldl_cons] at h
    by_cases hk : k = f s
    · simp only [insertGrouped, if_pos hk] at h
      obtain ⟨h1, h2, h3⟩ := ih k (g0 ++ [s]) k' g h
      refine ⟨h1, by simp [h2], ?_⟩
      intro t ht
      rcases List.mem_cons.1 ht with h' | h'
      · rw [h', hk]
      · exact h3 t h'
    · exfalso
      simp only [insertGrouped, if_neg hk] at h
      have := foldl_insertGrouped_length_le f b [(k, g0), (f s, [s])]
      rw [h] at this
      simp at this

theorem foldl_insertGrouped_uniform (f : Nat → List Int) :
    ∀ (b : List Nat) (k : List Int) (g0 : List Nat),
      (∀ s ∈ b, f s = k) →
      b.foldl (fun a s => insertGrouped (f s) s a) [(k, g0)] =
        [(k, g0 ++ b)] := by
  intro b
  induction b with
  | nil => intro k g0 _; simp
  | cons s b ih =>
    intro k g0 h
    rw [List.foldl_cons]
    have hk : k = f s := (h s (List.mem_cons_self s b)).symm
    simp only [insertGrouped, if_pos hk]
    rw [ih k (g0 ++ [s]) (fun t ht => h t (List.mem_cons_of_mem s ht))]
    simp

theorem groupByKey_of_uniform (f : Nat → List Int) (b : List Nat)
    (hb : ¬ b = []) (h : ∀ s ∈ b, ∀ t ∈ b, f s = f t) :
    groupByKey f b = [b] := by
  cases b with
  | nil => exact absurd rfl hb
  | cons s b =>
    unfold groupByKey
    rw [List.foldl_cons]
    show ((b.foldl (fun a t => insertGrouped (f t) t a)
      (insertGrouped (f s) s [])).map (fun p => p.2)) = [s :: b]
    have : insertGrouped (f s) s [] = [(f s, [s])] := rfl
    rw [this, foldl_insertGrouped_uniform f b (f s) [s]
      (fun t ht => h t (List.mem_cons_of_mem s ht) s (List.mem_cons_self s b))]
    simp

theorem groupByKey_single (f : Nat → List Int) (b g : List Nat)
    (h : groupByKey f b = [g]) :
    g = b ∧ ∀ s ∈ b, ∀ t ∈ b, f s = f t := by
  cases b with
  | nil => simp [groupByKey] at h
  | cons s b =>
    unfold groupByKey at h
    rw [List.foldl_cons] at h
    have hins : insertGrouped (f s) s [] = [(f s, [s])] := rfl
    rw [hins] at h
    set r := b.foldl (fun a t => insertGrouped (f t) t a) [(f s, [s])] with hr
    have hlen : r.length = 1 := by
      have := congrArg List.length h
      simpa using this
    obtain ⟨p, hp⟩ : ∃ p, r = [p] := List.length_eq_one.1 hlen
    have hpg : p.2 = g := by
      rw [hp] at h; simpa using h
    obtain ⟨h1, h2, h3⟩ :=
      foldl_insertGrouped_single f b (f s) [s] p.1 p.2 (by rw [← hp])
    constructor
    · rw [← hpg, h2]; simp
    · intro x hx y hy
      have hall : ∀ x ∈ s :: b, f x = f s := by
        intro x hx
        rcases List.mem_cons.1 hx with h' | h'
        · rw [h']
        · exact h3 x h'
      rw [hall x hx, hall y hy]

theorem insertGrouped_flatten_perm (k : List Int) (s : Nat)
    (acc : List (List Int × List Nat)) :
    List.Perm ((insertGrouped k s acc).map (fun p => p.2)).flatten
      (s :: (acc.map (fun p => p.2)).flatten) := by
  induction acc with
  | nil => simp [insertGrouped]
  | cons p rest ih =>
    obtain ⟨k', g⟩ := p
    by_cases h : k' = k
    · simp only [insertGrouped, if_pos h, List.map_cons, List.flatten_cons]
      rw [List.append_assoc]
      exact List.perm_middle
    · simp only [insertGrouped, if_neg h, List.map_cons, List.flatten_cons]
      exact (ih.append_left g).trans List.perm_middle

theorem foldl_insertGrouped_flatten_perm (f : Nat → List Int) :
    ∀ (b : List Nat) (acc : List (List Int × List Nat)),
      List.Perm
        ((b.foldl (fun a s => insertGrouped (f s) s a) acc).map
          (fun p => p.2)).flatten
        ((acc.map (fun p => p.2)).flatten ++ b) := by
  intro b
  induction b with
  | nil => intro acc; simp
  | cons s b ih =>
    intro acc
    rw [List.foldl_cons]
    refine (ih (insertGrouped (f s) s acc)).trans ?_
    refine ((insertGrouped_flatten_perm (f s) s acc).append_right b).trans ?_
    exact List.perm_middle.symm

theorem groupByKey_flatten_perm (f : Nat → List Int) (b : List Nat) :
    List.Perm (groupByKey f b).flatten b := by
  simpa using foldl_insertGrouped_flatten_perm f b []

theorem foldl_insertGrouped_nonempty (f : Nat → List Int) :
    ∀ (b : List Nat) (acc : List (List Int × List Nat)),
      (∀ p ∈ acc, ¬ p.2 = []) →
      ∀ p ∈ b.foldl (fun a s => insertGrouped (f s) s a) acc, ¬ p.2 = [] := by
  intro b
  induction b with
  | nil => intro acc h; exact h
  | cons s b ih =>
    intro acc h
    rw [List.foldl_cons]
    refine ih _ ?_
    clear ih
    induction acc with
    | nil => simp [insertGrouped]
    | cons q rest ih' =>
      obtain ⟨k', g⟩ := q
      by_cases hq : k' = f s
      · simp only [insertGrouped, if_pos hq]
        intro p hp
        rcases List.mem_cons.1 hp with h' | h'
        · rw [h']; simp
        · exact h p (List.mem_cons_of_mem _ h')
      · simp only [insertGrouped, if_neg hq]
        intro p hp
        rcases List.mem_cons.1 hp with h' | h'
        · rw [h']; exact h (k', g) (List.mem_cons_self _ _)
        · exact ih' (fun q hq' => h q (List.mem_cons_of_mem _ hq')) p h'

theorem groupByKey_nonempty (f : Nat → List Int) (b : List Nat) :
    ∀ g ∈ groupByKey f b, ¬ g = [] := by
  intro g hg
  obtain ⟨p, hp, hp2⟩ := List.mem_map.1 hg
  rw [← hp2]
  exact foldl_insertGrouped_nonempty f b [] (by simp) p hp

theorem foldl_insertGrouped_sub (f : Nat → List Int) :
    ∀ (b : List Nat) (acc : List (List Int × List Nat)),
      ∀ p ∈ b.foldl (fun a s => insertGrouped (f s) s a) acc, ∀ t ∈ p.2,
        (∃ q ∈ acc, t ∈ q.2) ∨ t ∈ b := by
  intro b
  induction b with
  | nil =>
    intro acc p hp t ht
    exact Or.inl ⟨p, hp, ht⟩
  | cons s b ih =>
    intro acc p hp t ht
    rw [List.foldl_cons] at hp
    rcases ih (insertGrouped (f s) s acc) p hp t ht with ⟨q, hq, hq2⟩ | h'
    · -- q is in the accumulator after inserting s
      clear hp ih ht
      induction acc with
      | nil =>
        simp only [insertGrouped, List.mem_singleton] at hq
        rw [hq] at hq2
        simp only [List.mem_singleton] at hq2
        exact Or.inr (by rw [hq2]; exact List.mem_cons_self s b)
      | cons q' rest ih' =>
        obtain ⟨k', g⟩ := q'
        by_cases hk : k' = f s
        · simp only [insertGrouped, if_pos hk] at hq
          rcases List.mem_cons.1 hq with h'' | h''
          · rw [h''] at hq2
            rcases List.mem_append.1 hq2 with h3 | h3
            · exact Or.inl ⟨(k', g), List.mem_cons_self _ _, h3⟩
            · simp only [List.mem_singleton] at h3
              exact Or.inr (by rw [h3]; exact List.mem_cons_self s b)
          · exact Or.inl ⟨q, List.mem_cons_of_mem _ h'', hq2⟩
        · simp only [insertGrouped, if_neg hk] at hq
          rcases List.mem_cons.1 hq with h'' | h''
          · exact Or.inl ⟨q, by rw [h'']; exact List.mem_cons_self _ _, hq2⟩
          · rcases ih' h'' with ⟨q2, hq3, hq4⟩ | h3
            · exact Or.inl ⟨q2, List.mem_cons_of_mem _ hq3, hq4⟩
            · exact Or.inr h3
    · exact Or.inr (List.mem_cons_of_mem s h')

theorem groupByKey_sub (f : Nat → List Int) (b : List Nat) :
    ∀ g ∈ groupByKey f b, ∀ t ∈ g, t ∈ b := by
  intro g hg t ht
  obtain ⟨p, hp, hp2⟩ := List.mem_map.1 hg
  rw [← hp2] at ht
  rcases foldl_insertGrouped_sub f b [] p hp t ht with ⟨q, hq, _⟩ | h
  · simp at hq
  · exact h

theorem foldl_insertGrouped_keyed (f : Nat → List Int) :
    ∀ (b : List Nat) (acc : List (List Int × List Nat)),
      (∀ p ∈ acc, ∀ t ∈ p.2, f t = p.1) →
      ∀ p ∈ b.foldl (fun a s => insertGrouped (f s) s a) acc, ∀ t ∈ p.2,
        f t = p.1 := by
  intro b
  induction b with
  | nil => intro acc h; exact h
  | cons s b ih =>
    intro acc h
    rw [List.foldl_cons]
    refine ih _ ?_
    clear ih
    induction acc with
    | nil =>
      simp only [insertGrouped]
      intro p hp t ht
      simp only [List.mem_singleton] at hp
      rw [hp] at ht ⊢
      simp only [List.mem_singleton] at ht
      rw [ht]
    | cons q rest ih' =>
      obtain ⟨k', g⟩ := q
      by_cases hk : k' = f s
      · simp only [insertGrouped, if_pos hk]
        intro p hp t ht
        rcases List.mem_cons.1 hp with h' | h'
        · rw [h'] at ht ⊢
          rcases List.mem_append.1 ht with h3 | h3
          · exact h (k', g) (List.mem_cons_self _ _) t h3
          · simp only [List.mem_singleton] at h3
            rw [h3]
            exact hk.symm
        · exact h p (List.mem_cons_of_mem _ h') t ht
      · simp only [insertGrouped, if_neg hk]
        intro p hp t ht
        rcases List.mem_cons.1 hp with h' | h'
        · exact h p (by rw [h']; exact List.mem_cons_self _ _) t ht
        · exact ih' (fun q hq => h q (List.mem_cons_of_mem _ hq)) p h' t ht

theorem groupByKey_uniform (f : Nat → List Int) (b : List Nat) :
    ∀ g ∈ groupByKey f b, ∀ s ∈ g, ∀ t ∈ g, f s = f t := by
  intro g hg s hs t ht
  obtain ⟨p, hp, hp2⟩ := List.mem_map.1 hg
  rw [← hp2] at hs ht
  have h1 := foldl_insertGrouped_keyed f b [] (by simp) p hp s hs
  have h2 := foldl_insertGrouped_keyed f b [] (by simp) p hp t ht
  rw [h1, h2]

/-! Lemmas on refinement rounds (`refineAux`, `refineOnce`, `refineLoop`). -/

theorem groupByKey_ne_nil (f : Nat → List Int) (b : List Nat)
    (hb : ¬ b = []) : ¬ groupByKey f b = [] := by
  intro h
  have hperm := groupByKey_flatten_perm f b
  rw [h] at hperm
  exact hb hperm.symm.eq_nil

theorem refineAux_length_le (f : Nat → List Int) :
    ∀ P : List (List Nat), P.length ≤ (refineAux f P).length := by
  intro P
  induction P with
  | nil => simp [refineAux]
  | cons b P ih =>
    simp only [refineAux, List.length_append, List.length_cons]
    by_cases hb : b = []
    · simp [hb]; omega
    · have h1 : 1 ≤ (groupByKey f b).length :=
        List.length_pos.2 (groupByKey_ne_nil f b hb)
      simp [hb]; omega

theorem refineAux_eq_of_length (f : Nat → List Int) :
    ∀ P : List (List Nat),
      (refineAux f P).length = P.length → refineAux f P = P := by
  intro P
  induction P with
  | nil => intro _; rfl
  | cons b P ih =>
    intro h
    simp only [refineAux, List.length_append, List.length_cons] at h
    have hP : P.length ≤ (refineAux f P).length := refineAux_length_le f P
    have hpiece : 1 ≤ (if b = [] then [b] else groupByKey f b).length := by
      by_cases hb : b = []
      · simp [hb]
      · simpa [hb] using List.length_pos.2 (groupByKey_ne_nil f b hb)
    have h1 : (if b = [] then [b] else groupByKey f b).length = 1 := by omega
    have h2 : (refineAux f P).length = P.length := by omega
    have hPeq := ih h2
    by_cases hb : b = []
    · simp only [refineAux, if_pos hb]
      rw [hPeq]
      simp [hb]
    · obtain ⟨g, hg⟩ : ∃ g, groupByKey f b = [g] :=
        List.length_eq_one.1 (by simpa [hb] using h1)
      have := (groupByKey_single f b g hg).1
      simp only [refineAux, if_neg hb]
      rw [hg, hPeq, this]
      rfl

theorem refineAux_lt_of_ne (f : Nat → List Int) (P : List (List Nat))
    (h : ¬ refineAux f P = P) :
    P.length + 1 ≤ (refineAux f P).length := by
  have h1 := refineAux_length_le f P
  rcases Nat.lt_or_ge P.length (refineAux f P).length with h2 | h2
  · omega
  · exact absurd (refineAux_eq_of_length f P (by omega)) h

theorem refineAux_fix_uniform (f : Nat → List Int) :
    ∀ P : List (List Nat), refineAux f P = P →
      ∀ b ∈ P, ∀ s ∈ b, ∀ t ∈ b, f s = f t := by
  intro P
  induction P with
  | nil => intro _ b hb; simp at hb
  | cons b P ih =>
    intro h b' hb'
    have hlen : (refineAux f (b :: P)).length = (b :: P).length := by rw [h]
    simp only [refineAux, List.length_append, List.length_cons] at hlen
    have hP : P.length ≤ (refineAux f P).length := refineAux_length_le f P
    have hpiece : 1 ≤ (if b = [] then [b] else groupByKey f b).length := by
      by_cases hb : b = []
      · simp [hb]
      · simpa [hb] using List.length_pos.2 (groupByKey_ne_nil f b hb)
    have h1 : (if b = [] then [b] else groupByKey f b).length = 1 := by omega
    have h2 : (refineAux f P).length = P.length := by omega
    have hPeq := refineAux_eq_of_length f P h2
    rcases List.mem_cons.1 hb' with hb1 | hb1
    · subst hb1
      by_cases hb : b' = []
      · intro s hs; rw [hb] at hs; simp at hs
      · obtain ⟨g, hg⟩ : ∃ g, groupByKey f b' = [g] :=
          List.length_eq_one.1 (by simpa [hb] using h1)
      -- the single group is the block itself, and it is signature-uniform
        exact fun s hs t ht => (groupByKey_single f b' g hg).2 s hs t ht
    · exact ih hPeq b' hb1

theorem refineAux_flatten_perm (f : Nat → List Int) :
    ∀ P : List (List Nat),
      List.Perm (refineAux f P).flatten P.flatten := by
  intro P
  induction P with
  | nil => simp [refineAux]
  | cons b P ih =>
    simp only [refineAux, List.flatten_append, List.flatten_cons]
    by_cases hb : b = []
    · simpa [hb] using ih
    · simp only [if_neg hb]
      exact ((groupByKey_flatten_perm f b).append ih).trans (List.Perm.refl _)

theorem refineAux_empty_mem (f : Nat → List Int) :
    ∀ P : List (List Nat), [] ∈ P → [] ∈ refineAux f P := by
  intro P
  induction P with
  | nil => intro h; simp at h
  | cons b P ih =>
    intro h
    simp only [refineAux]
    rcases List.mem_cons.1 h with h1 | h1
    · rw [← h1] at *
      simp
    · exact List.mem_append.2 (Or.inr (ih h1))

theorem refineAux_count_nil (f : Nat → List Int) :
    ∀ P : List (List Nat), (refineAux f P).count [] = P.count [] := by
  intro P
  induction P with
  | nil => rfl
  | cons b P ih =>
    simp only [refineAux, List.count_append]
    by_cases hb : b = []
    · subst hb
      simp only [if_pos rfl, List.count_cons_self, ih]
      simp [List.count_cons_self]
      omega
    · have h0 : (groupByKey f b).count [] = 0 :=
        List.count_eq_zero.2 (fun h => groupByKey_nonempty f b [] h rfl)
      rw [if_neg hb, h0, ih, List.count_cons_of_ne (fun h => hb h.symm)]
      omega

theorem refineAux_homog (f : Nat → List Int) (g : Nat → Bool) :
    ∀ P : List (List Nat),
      (∀ b ∈ P, ∀ s ∈ b, ∀ t ∈ b, g s = g t) →
      ∀ b ∈ refineAux f P, ∀ s ∈ b, ∀ t ∈ b, g s = g t := by
  intro P
  induction P with
  | nil => intro _ b hb; simp [refineAux] at hb
  | cons b P ih =>
    intro h b' hb' s hs t ht
    simp only [refineAux] at hb'
    rcases List.mem_append.1 hb' with h1 | h1
    · by_cases hb : b = []
      · rw [if_pos hb] at h1
        simp only [List.mem_singleton] at h1
        rw [h1, hb] at hs
        simp at hs
      · rw [if_neg hb] at h1
        exact h b (List.mem_cons_self _ _) s (groupByKey_sub f b b' h1 s hs) t
          (groupByKey_sub f b b' h1 t ht)
    · exact ih (fun c hc => h c (List.mem_cons_of_mem _ hc)) b' h1 s hs t ht

theorem nodup_subset_length_le (l l' : List Nat) (h : l.Nodup)
    (hs : ∀ x ∈ l, x ∈ l') : l.length ≤ l'.length := by
  calc l.length = l.toFinset.card := (List.toFinset_card_of_nodup h).symm
  _ ≤ l'.toFinset.card := by
      refine Finset.card_le_card ?_
      intro x hx
      exact List.mem_toFinset.2 (hs x (List.mem_toFinset.1 hx))
  _ ≤ l'.length := l'.toFinset_card_le

theorem length_le_count_nil_add_flatten :
    ∀ P : List (List Nat), P.length ≤ P.count [] + P.flatten.length := by
  intro P
  induction P with
  | nil => simp
  | cons b P ih =>
    by_cases hb : b = []
    · subst hb
      have h1 : List.count ([] : List Nat) ([] :: P) =
          List.count ([] : List Nat) P + 1 := List.count_cons_self _ _
      have h2 : (([] : List Nat) :: P).flatten.length = P.flatten.length := by
        simp
      simp only [List.length_cons, h1, h2]
      omega
    · have h1 : List.count ([] : List Nat) (b :: P) =
          List.count ([] : List Nat) P :=
        List.count_cons_of_ne (fun h => hb h.symm) _
      have h2 : ((b :: P).flatten).length = b.length + P.flatten.length := by
        rw [List.flatten_cons, List.length_append]
      have h3 : 1 ≤ b.length := List.length_pos.2 hb
      simp only [List.length_cons, h1, h2]
      omega

theorem PartGood_length_le (store : List DFAState) (vals : List Nat)
    (P : List (List Nat)) (h : PartGood store vals P) :
    P.length ≤ vals.length + 2 := by
  obtain ⟨hnd, hmem, hcnt, _⟩ := h
  have h1 := length_le_count_nil_add_flatten P
  have h2 : P.flatten.length ≤ vals.length :=
    nodup_subset_length_le _ _ hnd (fun x hx => (hmem x).1 hx)
  omega

theorem PartGood_refineOnce (store : List DFAState) (alpha : List String)
    (vals : List Nat) (P : List (List Nat)) (h : PartGood store vals P) :
    PartGood store vals (refineOnce store alpha P) := by
  obtain ⟨hnd, hmem, hcnt, hhom⟩ := h
  have hperm := refineAux_flatten_perm
    (fun s => signatureOf store alpha P s) P
  refine ⟨hperm.nodup_iff.2 hnd, ?_, ?_, ?_⟩
  · intro i
    rw [refineOnce, hperm.mem_iff]
    exact hmem i
  · rw [refineOnce, refineAux_count_nil]
    exact hcnt
  · exact refineAux_homog _ (fun i => (objAt store i).is_accepting) P hhom

theorem refineLoop_fix (store : List DFAState) (alpha : List String)
    (vals : List Nat) :
    ∀ (fuel : Nat) (P : List (List Nat)), PartGood store vals P →
      vals.length + 2 ≤ P.length + fuel →
      refineOnce store alpha (refineLoop store alpha fuel P) =
        refineLoop store alpha fuel P ∧
      PartGood store vals (refineLoop store alpha fuel P) := by
  intro fuel
  induction fuel with
  | zero =>
    intro P hP hlen
    simp only [refineLoop]
    refine ⟨?_, hP⟩
    by_contra h
    have h1 := refineAux_lt_of_ne (fun s => signatureOf store alpha P s) P h
    have h2 := PartGood_length_le store vals _
      (PartGood_refineOnce store alpha vals P hP)
    rw [refineOnce] at h
    simp only [refineOnce] at h2
    omega
  | succ fuel ih =>
    intro P hP hlen
    simp only [refineLoop]
    by_cases h : refineOnce store alpha P = P
    · simp only [if_pos h]
      exact ⟨h, hP⟩
    · simp only [if_neg h]
      refine ih (refineOnce store alpha P)
        (PartGood_refineOnce store alpha vals P hP) ?_
      have := refineAux_lt_of_ne (fun s => signatureOf store alpha P s) P
        (by simpa [refineOnce] using h)
      simp only [refineOnce] at *
      omega

theorem PartGood_init (store : List DFAState) (vals : List Nat) :
    PartGood store vals (initPartition store vals) := by
  refine ⟨?_, ?_, ?_, ?_⟩
  · simp only [initPartition, List.flatten_cons, List.flatten_nil,
      List.append_nil]
    refine List.Nodup.append (List.nodup_dedup _) (List.nodup_dedup _) ?_
    intro x hx hy
    rw [List.mem_dedup, List.mem_filter] at hx hy
    have h1 := hx.2
    have h2 := hy.2
    simp only [decide_eq_true_eq] at h1 h2
    exact h1 (by simpa using h2)
  · intro i
    simp only [initPartition, List.flatten_cons, List.flatten_nil,
      List.append_nil, List.mem_append, List.mem_dedup, List.mem_filter]
    constructor
    · rintro (⟨h, _⟩ | ⟨h, _⟩) <;> exact h
    · intro h
      by_cases ha : (objAt store i).is_accepting
      · exact Or.inr ⟨h, by simpa using ha⟩
      · exact Or.inl ⟨h, by simpa using ha⟩
  · exact le_trans (List.count_le_length _ _) (by simp [initPartition])
  · intro b hb s hs t ht
    simp only [initPartition, List.mem_cons, List.mem_singleton,
      List.not_mem_nil, or_false] at hb
    rcases hb with hb | hb
    · subst hb
      rw [List.mem_dedup, List.mem_filter] at hs ht
      have h1 := hs.2
      have h2 := ht.2
      simp only [decide_eq_true_eq] at h1 h2
      simp only [eq_false_of_ne_true (by simpa using h1),
        eq_false_of_ne_true (by simpa using h2)]
    · subst hb
      rw [List.mem_dedup, List.mem_filter] at hs ht
      have h1 := hs.2
      have h2 := ht.2
      simp only [decide_eq_true_eq] at h1 h2
      rw [h1, h2]

theorem finalPartition_spec (store : List DFAState) (vals : List Nat) :
    refineOnce store (sortedAlphabet store vals)
      (finalPartition store vals) = finalPartition store vals ∧
    PartGood store vals (finalPartition store vals) := by
  refine refineLoop_fix store (sortedAlphabet store vals) vals
    (vals.length + 1) (initPartition store vals)
    (PartGood_init store vals) ?_
  simp only [initPartition, List.length_cons, List.length_singleton]
  omega

theorem refineLoop_empty_mem (store : List DFAState) (alpha : List String) :
    ∀ (fuel : Nat) (P : List (List Nat)), [] ∈ P →
      [] ∈ refineLoop store alpha fuel P := by
  intro fuel
  induction fuel with
  | zero => intro P h; simpa [refineLoop] using h
  | succ fuel ih =>
    intro P h
    simp only [refineLoop]
    by_cases hf : refineOnce store alpha P = P
    · simpa [hf] using h
    · simp only [if_neg hf]
      exact ih (refineOnce store alpha P) (refineAux_empty_mem _ P h)

/-- Claim C9 (counterexample): on the single-state automaton the claim's
bound fails: the partition list at the fixed point has 2 blocks (one of them
the retained empty accepting block) while the automaton has only 1 state. -/
theorem block_count_exceeds_state_count_cex :
    (finalPartition exStoreS [0]).length = 2 ∧
    ¬ (finalPartition exStoreS [0]).length ≤ ([0] : List Nat).length := by
  decide

/-- Claim C9 (amended): the refinement loop does terminate: with fuel
`|vals| + 1` the returned partition list is a fixed point of a full
refinement round, the block count is monotonically non-decreasing across
rounds, and it is bounded by the number of original states plus the two
(possibly empty) initial blocks — not by the number of states alone, since
empty blocks are carried along. -/
theorem refine_loop_termination (store : List DFAState) (vals : List Nat) :
    refineOnce store (sortedAlphabet store vals) (finalPartition store vals) =
      finalPartition store vals ∧
    (∀ P : List (List Nat),
      P.length ≤ (refineOnce store (sortedAlphabet store vals) P).length) ∧
    (finalPartition store vals).length ≤ vals.length + 2 := by
  obtain ⟨h1, h2⟩ := finalPartition_spec store vals
  exact ⟨h1, fun P => refineAux_length_le _ P,
    PartGood_length_le store vals _ h2⟩

/-- Claim C8 (counterexample): for the single-state automaton with a
non-accepting state, the initial partition list contains the empty accepting
block, and the empty block is still present at the fixed point — the claim
that the partition list never contains an empty block is false. -/
theorem initial_partition_empty_block_cex :
    [] ∈ initPartition exStoreS [0] ∧ [] ∈ finalPartition exStoreS [0] := by
  decide

/-- Claim C8 (amended): the initial partition always consists of exactly the
non-accepting block and the accepting block, an empty one included rather
than omitted; refinement rounds append empty blocks back unchanged, so an
empty initial block persists to the fixed point (it is only skipped later
when the minimized states are built). -/
theorem empty_block_persistence :
    (∀ (f : Nat → List Int) (P : List (List Nat)),
      [] ∈ P → [] ∈ refineAux f P) ∧
    (∀ (store : List DFAState) (vals : List Nat),
      (∀ i ∈ vals, (objAt store i).is_accepting = false) →
      [] ∈ finalPartition store vals) := by
  constructor
  · exact fun f P h => refineAux_empty_mem f P h
  · intro store vals h
    refine refineLoop_empty_mem store (sortedAlphabet store vals)
      (vals.length + 1) (initPartition store vals) ?_
    have : (vals.filter (fun i => (objAt store i).is_accepting)) = [] :=
      List.filter_eq_nil_iff.2 (fun i hi => by simp [h i hi])
    simp [initPartition, this]

/-- Witness for `empty_block_persistence` on the single-state automaton. -/
theorem empty_block_persistence_witness :
    [] ∈ finalPartition exStoreS [0] :=
  empty_block_persistence.2 exStoreS [0] (by decide)

/-! Lemmas on block lookup (`blockSearch`) and name sorting. -/

theorem blockSearch_mem :
    ∀ (P : List (List Nat)) (t k : Nat), blockSearch P t = some k →
      ∃ b, P[k]? = some b ∧ t ∈ b := by
  intro P
  induction P with
  | nil => intro t k h; simp [blockSearch] at h
  | cons b P ih =>
    intro t k h
    simp only [blockSearch] at h
    by_cases hb : t ∈ b
    · rw [if_pos hb] at h
      obtain rfl : (0 : Nat) = k := by simpa using h
      exact ⟨b, by simp, hb⟩
    · rw [if_neg hb] at h
      obtain ⟨k', hk', rfl⟩ : ∃ k', blockSearch P t = some k' ∧ k' + 1 = k := by
        cases hbs : blockSearch P t with
        | none => rw [hbs] at h; simp at h
        | some k' => rw [hbs] at h; exact ⟨k', rfl, by simpa using h⟩
      obtain ⟨c, hc, htc⟩ := ih t k' hk'
      exact ⟨c, by simpa using hc, htc⟩

theorem blockSearch_of_getElem :
    ∀ (P : List (List Nat)), P.flatten.Nodup →
      ∀ (j : Nat) (b : List Nat) (u : Nat), P[j]? = some b → u ∈ b →
        blockSearch P u = some j := by
  intro P
  induction P with
  | nil => intro _ j b u h; simp at h
  | cons c P ih =>
    intro hnd j b u hb hu
    have hnd' : P.flatten.Nodup ∧ ∀ x ∈ c, ¬ x ∈ P.flatten := by
      rw [List.flatten_cons] at hnd
      exact ⟨hnd.of_append_right, fun x hx hx' =>
        (List.disjoint_of_nodup_append hnd) hx hx'⟩
    cases j with
    | zero =>
      obtain rfl : c = b := by simpa using hb
      simp [blockSearch, hu]
    | succ j' =>
      have hb' : P[j']? = some b := by simpa using hb
      have hbP : b ∈ P := by
        have := List.getElem?_eq_some.1 hb'
        obtain ⟨hlt, heq⟩ := this
        exact heq ▸ List.getElem_mem hlt
      have huP : u ∈ P.flatten := List.mem_flatten.2 ⟨b, hbP, hu⟩
      have huc : ¬ u ∈ c := fun hc => hnd'.2 u hc huP
      simp only [blockSearch, if_neg huc, ih hnd'.1 j' b u hb' hu,
        Option.map_some']

theorem blockSearch_isSome_of_mem_flatten (P : List (List Nat)) (u : Nat)
    (h : u ∈ P.flatten) : ∃ k, blockSearch P u = some k := by
  induction P with
  | nil => simp at h
  | cons b P ih =>
    rw [List.flatten_cons, List.mem_append] at h
    by_cases hb : u ∈ b
    · exact ⟨0, by simp [blockSearch, hb]⟩
    · obtain ⟨k, hk⟩ := ih (h.resolve_left hb)
      exact ⟨k + 1, by simp [blockSearch, hb, hk]⟩

theorem mem_insertSorted (x y : String) :
    ∀ l : List String, y ∈ insertSorted x l ↔ y = x ∨ y ∈ l := by
  intro l
  induction l with
  | nil => simp [insertSorted]
  | cons z l ih =>
    show y ∈ (if strLt z x then z :: insertSorted x l else x :: z :: l) ↔ _
    split
    · simp only [List.mem_cons, ih]
      tauto
    · simp only [List.mem_cons]

theorem mem_sortStrings (y : String) :
    ∀ l : List String, y ∈ sortStrings l ↔ y ∈ l := by
  intro l
  induction l with
  | nil => simp [sortStrings]
  | cons x l ih =>
    simp only [sortStrings, mem_insertSorted, List.mem_cons, ih]

theorem length_insertSorted (x : String) :
    ∀ l : List String, (insertSorted x l).length = l.length + 1 := by
  intro l
  induction l with
  | nil => rfl
  | cons z l ih =>
    show (if strLt z x then z :: insertSorted x l else x :: z :: l).length =
      l.length + 1 + 1
    split
    · simp [ih]
    · simp

theorem length_sortStrings :
    ∀ l : List String, (sortStrings l).length = l.length := by
  intro l
  induction l with
  | nil => rfl
  | cons x l ih => simp [sortStrings, length_insertSorted, ih]

theorem string_data_append (a b : String) : (a ++ b).data = a.data ++ b.data := by
  cases a; cases b; rfl

theorem commaJoin_ne_START (l : List String) (h : 2 ≤ l.length) :
    ¬ commaJoin l = "START" := by
  intro hc
  obtain ⟨a, b, rest, rfl⟩ : ∃ a b rest, l = a :: b :: rest := by
    cases l with
    | nil => simp at h
    | cons a l' =>
      cases l' with
      | nil => simp at h
      | cons b rest => exact ⟨a, b, rest, rfl⟩
  have hdata : (',' : Char) ∈ ("START" : String).data := by
    rw [← hc]
    show (',' : Char) ∈ (a ++ ", " ++ commaJoin (b :: rest)).data
    rw [string_data_append, string_data_append]
    refine List.mem_append.2 (Or.inl (List.mem_append.2 (Or.inr ?_)))
    show (',' : Char) ∈ [',', ' ']
    simp
  simp at hdata

theorem blockName_singleton (store : List DFAState) (b : List Nat)
    (hb : ¬ b = []) (h : blockName store b = "START") :
    ∃ x, b = [x] ∧ (objAt store x).name = "START" := by
  cases b with
  | nil => exact absurd rfl hb
  | cons x b' =>
    cases b' with
    | nil =>
      refine ⟨x, rfl, ?_⟩
      simpa [blockName, sortStrings, insertSorted, commaJoin] using h
    | cons y b'' =>
      exfalso
      refine commaJoin_ne_START
        (sortStrings ((x :: y :: b'').map (fun i => (objAt store i).name)))
        ?_ h
      rw [length_sortStrings]
      simp

/-! Lemmas on the dict embedding (`dictInsert`, `dictGet`, `dictDel`). -/

theorem dictGet_mem (k : String) :
    ∀ (d : List (String × Nat)) (v : Nat), dictGet k d = some v → (k, v) ∈ d := by
  intro d
  induction d with
  | nil => intro v h; simp [dictGet] at h
  | cons e d ih =>
    intro v h
    obtain ⟨k', v'⟩ := e
    simp only [dictGet] at h
    by_cases hk : k' = k
    · rw [if_pos hk] at h
      obtain rfl : v' = v := by simpa using h
      simp [hk]
    · rw [if_neg hk] at h
      exact List.mem_cons_of_mem _ (ih v h)

theorem dictGet_isSome_of_mem_keys (k : String) :
    ∀ d : List (String × Nat), k ∈ d.map (fun e => e.1) →
      ∃ v, dictGet k d = some v := by
  intro d
  induction d with
  | nil => intro h; simp at h
  | cons e d ih =>
    intro h
    obtain ⟨k', v'⟩ := e
    by_cases hk : k' = k
    · exact ⟨v', by simp [dictGet, hk]⟩
    · simp only [List.map_cons, List.mem_cons] at h
      rcases h with h | h
      · exact absurd h.symm hk
      · obtain ⟨v, hv⟩ := ih h
        exact ⟨v, by simp [dictGet, hk, hv]⟩

theorem dictGet_none_not_mem_keys (k : String) :
    ∀ d : List (String × Nat), dictGet k d = none →
      ∀ e ∈ d, ¬ e.1 = k := by
  intro d
  induction d with
  | nil => intro _ e he; simp at he
  | cons e' d ih =>
    intro h e he
    obtain ⟨k', v'⟩ := e'
    simp only [dictGet] at h
    by_cases hk : k' = k
    · rw [if_pos hk] at h; simp at h
    · rw [if_neg hk] at h
      rcases List.mem_cons.1 he with rfl | he'
      · exact hk
      · exact ih h e he'

theorem mem_dictInsert (k : String) (v : Nat) :
    ∀ (d : List (String × Nat)) (e : String × Nat),
      e ∈ dictInsert k v d → e = (k, v) ∨ e ∈ d := by
  intro d
  induction d with
  | nil => intro e he; simp [dictInsert] at he; exact Or.inl he
  | cons e' d ih =>
    intro e he
    obtain ⟨k', v'⟩ := e'
    simp only [dictInsert] at he
    by_cases hk : k' = k
    · rw [if_pos hk] at he
      rcases List.mem_cons.1 he with rfl | he'
      · exact Or.inl rfl
      · exact Or.inr (List.mem_cons_of_mem _ he')
    · rw [if_neg hk] at he
      rcases List.mem_cons.1 he with rfl | he'
      · exact Or.inr (List.mem_cons_self _ _)
      · rcases ih e he' with h | h
        · exact Or.inl h
        · exact Or.inr (List.mem_cons_of_mem _ h)

theorem mem_dictInsert_of_keysNodup (k : String) (v : Nat) :
    ∀ (d : List (String × Nat)), (d.map (fun e => e.1)).Nodup →
      ∀ e ∈ dictInsert k v d, e = (k, v) ∨ (e ∈ d ∧ ¬ e.1 = k) := by
  intro d
  induction d with
  | nil =>
    intro _ e he
    simp [dictInsert] at he
    exact Or.inl he
  | cons e' d ih =>
    intro hnd e he
    obtain ⟨k', v'⟩ := e'
    simp only [List.map_cons, List.nodup_cons] at hnd
    simp only [dictInsert] at he
    by_cases hk : k' = k
    · rw [if_pos hk] at he
      rcases List.mem_cons.1 he with rfl | he'
      · exact Or.inl rfl
      · refine Or.inr ⟨List.mem_cons_of_mem _ he', ?_⟩
        intro hke
        subst hk
        exact hnd.1 (hke ▸ List.mem_map.2 ⟨e, he', rfl⟩)
    · rw [if_neg hk] at he
      rcases List.mem_cons.1 he with rfl | he'
      · exact Or.inr ⟨List.mem_cons_self _ _, hk⟩
      · rcases ih hnd.2 e he' with h | ⟨h1, h2⟩
        · exact Or.inl h
        · exact Or.inr ⟨List.mem_cons_of_mem _ h1, h2⟩

theorem dictGet_dictInsert_self (k : String) (v : Nat) :
    ∀ d : List (String × Nat), dictGet k (dictInsert k v d) = some v := by
  intro d
  induction d with
  | nil => simp [dictInsert, dictGet]
  | cons e d ih =>
    obtain ⟨k', v'⟩ := e
    simp only [dictInsert]
    by_cases hk : k' = k
    · simp [dictGet, hk]
    · simp [dictGet, hk, ih]

theorem keys_dictInsert (k : String) (v : Nat) :
    ∀ (d : List (String × Nat)) (k' : String),
      k' ∈ (dictInsert k v d).map (fun e => e.1) ↔
        k' = k ∨ k' ∈ d.map (fun e => e.1) := by
  intro d
  induction d with
  | nil => intro k'; simp [dictInsert]
  | cons e d ih =>
    intro k'
    obtain ⟨k'', v''⟩ := e
    simp only [dictInsert]
    by_cases hk : k'' = k
    · rw [if_pos hk]
      subst hk
      simp only [List.map_cons, List.mem_cons]
      tauto
    · rw [if_neg hk]
      simp only [List.map_cons, List.mem_cons, ih]
      tauto

theorem keysNodup_dictInsert (k : String) (v : Nat) :
    ∀ d : List (String × Nat), (d.map (fun e => e.1)).Nodup →
      ((dictInsert k v d).map (fun e => e.1)).Nodup := by
  intro d
  induction d with
  | nil => intro _; simp [dictInsert]
  | cons e d ih =>
    intro hnd
    obtain ⟨k', v'⟩ := e
    simp only [List.map_cons, List.nodup_cons] at hnd
    simp only [dictInsert]
    by_cases hk : k' = k
    · rw [if_pos hk]
      subst hk
      simp only [List.map_cons, List.nodup_cons]
      exact hnd
    · rw [if_neg hk]
      simp only [List.map_cons, List.nodup_cons]
      refine ⟨?_, ih hnd.2⟩
      intro hmem
      rw [keys_dictInsert] at hmem
      rcases hmem with h | h
      · exact hk h
      · exact hnd.1 h

theorem length_dictInsert_le (k : String) (v : Nat) :
    ∀ d : List (String × Nat),
      (dictInsert k v d).length ≤ d.length + 1 := by
  intro d
  induction d with
  | nil => simp [dictInsert]
  | cons e d ih =>
    obtain ⟨k', v'⟩ := e
    simp only [dictInsert]
    by_cases hk : k' = k
    · simp [hk]
    · simp only [if_neg hk, List.length_cons]
      omega

theorem length_dictInsert_of_mem (k : String) (v : Nat) :
    ∀ d : List (String × Nat), k ∈ d.map (fun e => e.1) →
      (dictInsert k v d).length = d.length := by
  intro d
  induction d with
  | nil => intro h; simp at h
  | cons e d ih =>
    intro h
    obtain ⟨k', v'⟩ := e
    simp only [dictInsert]
    by_cases hk : k' = k
    · simp [hk]
    · simp only [List.map_cons, List.mem_cons] at h
      rcases h with h | h
      · exact absurd h.symm hk
      · simp [hk, ih h]

theorem mem_dictDel (k : String) :
    ∀ (d : List (String × Nat)) (e : String × Nat),
      e ∈ dictDel k d → e ∈ d := by
  intro d
  induction d with
  | nil => intro e he; simp [dictDel] at he
  | cons e' d ih =>
    intro e he
    obtain ⟨k', v'⟩ := e'
    simp only [dictDel] at he
    by_cases hk : k' = k
    · rw [if_pos hk] at he
      exact List.mem_cons_of_mem _ he
    · rw [if_neg hk] at he
      rcases List.mem_cons.1 he with rfl | he'
      · exact List.mem_cons_self _ _
      · exact List.mem_cons_of_mem _ (ih e he')

theorem mem_dictDel_of_ne (k : String) :
    ∀ (d : List (String × Nat)) (e : String × Nat),
      e ∈ d → ¬ e.1 = k → e ∈ dictDel k d := by
  intro d
  induction d with
  | nil => intro e he; simp at he
  | cons e' d ih =>
    intro e he hne
    obtain ⟨k', v'⟩ := e'
    simp only [dictDel]
    by_cases hk : k' = k
    · rw [if_pos hk]
      rcases List.mem_cons.1 he with rfl | he'
      · exact absurd hk hne
      · exact he'
    · rw [if_neg hk]
      rcases List.mem_cons.1 he with rfl | he'
      · exact List.mem_cons_self _ _
      · exact List.mem_cons_of_mem _ (ih e he' hne)

theorem length_dictDel_le (k : String) :
    ∀ d : List (String × Nat), (dictDel k d).length ≤ d.length := by
  intro d
  induction d with
  | nil => simp [dictDel]
  | cons e d ih =>
    obtain ⟨k', v'⟩ := e
    simp only [dictDel]
    by_cases hk : k' = k
    · simp only [if_pos hk, List.length_cons]
      omega
    · simp only [if_neg hk, List.length_cons]
      omega

theorem find?_eq_some_of_unique {α : Type} (p : α → Bool) :
    ∀ (l : List α) (x : α), x ∈ l → p x = true →
      (∀ y ∈ l, p y = true → y = x) → l.find? p = some x := by
  intro l
  induction l with
  | nil => intro x hx; simp at hx
  | cons z l ih =>
    intro x hx hp huniq
    by_cases hz : p z = true
    · have hzx : z = x := huniq z (List.mem_cons_self _ _) hz
      rw [List.find?_cons_of_pos _ hz, hzx]
    · rw [List.find?_cons_of_neg _ (by simpa using hz)]
      rcases List.mem_cons.1 hx with rfl | hx'
      · exact absurd hp hz
      · exact ih x hx' hp (fun y hy hpy => huniq y (List.mem_cons_of_mem _ hy) hpy)

/-! Lemmas on transition lookup and the minimized state objects. -/

theorem transLookup_eq_some (s : DFAState) (sym : String) (t : Nat)
    (h : transLookup s sym = some t) :
    ∃ p ∈ s.transitions, p.1 = sym ∧ p.2 = t := by
  unfold transLookup at h
  cases hf : s.transitions.find? (fun p => p.1 = sym) with
  | none => rw [hf] at h; simp at h
  | some p =>
    rw [hf] at h
    refine ⟨p, List.mem_of_find?_eq_some hf, ?_, by simpa using h⟩
    have := List.find?_some hf
    simpa using this

theorem find?_filterMap_lookup (g : Nat → Option Nat) (sym : String) :
    ∀ l : List (String × Nat), (l.map (fun p => p.1)).Nodup →
      ((l.filterMap (fun p => (g p.2).map (fun j => (p.1, j)))).find?
          (fun p => p.1 = sym)).map (fun p => p.2) =
        ((l.find? (fun p => p.1 = sym)).map (fun p => p.2)).bind g := by
  intro l
  induction l with
  | nil => intro _; simp
  | cons e l ih =>
    intro hnd
    obtain ⟨k, v⟩ := e
    simp only [List.map_cons, List.nodup_cons] at hnd
    by_cases hsym : k = sym
    · subst hsym
      cases hg : g v with
      | some j =>
        rw [List.filterMap_cons]
        simp only [hg, Option.map_some']
        rw [List.find?_cons_of_pos _ (by simp),
          List.find?_cons_of_pos _ (by simp)]
        simp [hg]
      | none =>
        rw [List.filterMap_cons]
        simp only [hg, Option.map_none']
        rw [List.find?_cons_of_pos _ (by simp)]
        have hnone : (l.filterMap
            (fun p => (g p.2).map (fun j => (p.1, j)))).find?
            (fun p => p.1 = k) = none := by
          rw [List.find?_eq_none]
          intro x hx
          obtain ⟨q, hq, hq2⟩ := List.mem_filterMap.1 hx
          cases hgq : g q.2 with
          | none => rw [hgq] at hq2; simp at hq2
          | some j' =>
            rw [hgq] at hq2
            obtain rfl : (q.1, j') = x := by simpa using hq2
            simp only [decide_eq_true_eq]
            intro hq1
            exact hnd.1 (hq1 ▸ List.mem_map.2 ⟨q, hq, rfl⟩)
        rw [hnone]
        simp [hg]
    · cases hg : g v with
      | some j =>
        rw [List.filterMap_cons]
        simp only [hg, Option.map_some']
        rw [List.find?_cons_of_neg _ (by simpa using hsym),
          List.find?_cons_of_neg _ (by simpa using hsym)]
        exact ih hnd.2
      | none =>
        rw [List.filterMap_cons]
        simp only [hg, Option.map_none']
        rw [List.find?_cons_of_neg _ (by simpa using hsym)]
        exact ih hnd.2

theorem headD_mem (b : List Nat) (hb : ¬ b = []) (d : Nat) :
    b.headD d ∈ b := by
  cases b with
  | nil => exact absurd rfl hb
  | cons x b' => simp

theorem any_eq_of_homog (acc : Nat → Bool) (b : List Nat)
    (h : ∀ s ∈ b, ∀ t ∈ b, acc s = acc t) (i : Nat) (hi : i ∈ b) :
    b.any acc = acc i := by
  cases hacc : acc i with
  | true => exact List.any_eq_true.2 ⟨i, hi, hacc⟩
  | false =>
    refine List.any_eq_false.2 ?_
    intro x hx
    rw [h x hx i hi, hacc]
    simp

theorem objAt_map_blocks (f : List Nat → DFAState) (Q : List (List Nat))
    (j : Nat) (b : List Nat) (h : Q[j]? = some b) :
    objAt (Q.map f) j = f b := by
  simp [objAt, List.getElem?_map, h]

theorem objAt_set_self (l : List DFAState) (j : Nat) (x : DFAState)
    (h : j < l.length) : objAt (l.set j x) j = x := by
  rw [objAt, List.getElem?_set_self]
  · simp [List.getElem?_eq_getElem, h]
  · exact h

theorem objAt_set_ne (l : List DFAState) (j : Nat) (x : DFAState) (i : Nat)
    (h : ¬ i = j) : objAt (l.set j x) i = objAt l i := by
  rw [objAt, List.getElem?_set_ne (fun hh => h hh.symm)]
  rfl

theorem flatten_filter_ne_nil :
    ∀ P : List (List Nat), (P.filter (fun b => ¬ b = [])).flatten = P.flatten := by
  intro P
  induction P with
  | nil => rfl
  | cons b P ih =>
    by_cases hb : b = []
    · subst hb
      simp only [List.filter_cons]
      simpa using ih
    · simp only [List.filter_cons]
      rw [if_pos (by simpa using hb)]
      simp only [List.flatten_cons, ih]

theorem mem_liveBlocks (store : List DFAState) (vals : List Nat)
    (b : List Nat) :
    b ∈ liveBlocks store vals ↔
      b ∈ finalPartition store vals ∧ ¬ b = [] := by
  simp [liveBlocks, List.mem_filter]

theorem transLookup_some_mem_alphabet (store : List DFAState)
    (vals : List Nat) (i : Nat) (hi : i ∈ vals) (sym : String) (t : Nat)
    (h : transLookup (objAt store i) sym = some t) :
    sym ∈ sortedAlphabet store vals := by
  obtain ⟨p, hp, hp1, _⟩ := transLookup_eq_some _ _ _ h
  rw [sortedAlphabet, mem_sortStrings, symbolsOf, List.mem_dedup]
  exact List.mem_flatMap.2 ⟨i, hi, hp1 ▸ List.mem_map.2 ⟨p, hp, rfl⟩⟩

/-! Consequences of the refinement fixed point for the minimized automaton. -/

theorem finalPartition_sig_uniform (store : List DFAState) (vals : List Nat) :
    ∀ b ∈ finalPartition store vals, ∀ s ∈ b, ∀ t ∈ b,
      signatureOf store (sortedAlphabet store vals)
          (finalPartition store vals) s =
        signatureOf store (sortedAlphabet store vals)
          (finalPartition store vals) t := by
  have h := (finalPartition_spec store vals).1
  rw [refineOnce] at h
  exact refineAux_fix_uniform _ _ h

theorem mem_vals_of_mem_block (store : List DFAState) (vals : List Nat)
    (b : List Nat) (hb : b ∈ finalPartition store vals) (s : Nat)
    (hs : s ∈ b) : s ∈ vals :=
  ((finalPartition_spec store vals).2.2.1 s).1 (List.mem_flatten.2 ⟨b, hb, hs⟩)

theorem fix_trans_agree (store : List DFAState) (vals : List Nat)
    (hclosed : ∀ i ∈ vals, ∀ p ∈ (objAt store i).transitions, p.2 ∈ vals)
    (b : List Nat) (hb : b ∈ finalPartition store vals)
    (s : Nat) (hs : s ∈ b) (t : Nat) (ht : t ∈ b) (sym : String) :
    (transLookup (objAt store s) sym = none ∧
      transLookup (objAt store t) sym = none) ∨
    (∃ u u' k, transLookup (objAt store s) sym = some u ∧
      transLookup (objAt store t) sym = some u' ∧ u ∈ vals ∧ u' ∈ vals ∧
      blockSearch (finalPartition store vals) u = some k ∧
      blockSearch (finalPartition store vals) u' = some k) := by
  have hsv : s ∈ vals := mem_vals_of_mem_block store vals b hb s hs
  have htv : t ∈ vals := mem_vals_of_mem_block store vals b hb t ht
  have hsig := finalPartition_sig_uniform store vals b hb s hs t ht
  rw [signatureOf, signatureOf, List.map_eq_map_iff] at hsig
  cases hls : transLookup (objAt store s) sym with
  | none =>
    cases hlt : transLookup (objAt store t) sym with
    | none => exact Or.inl ⟨rfl, rfl⟩
    | some u' =>
      exfalso
      have halpha : sym ∈ sortedAlphabet store vals :=
        transLookup_some_mem_alphabet store vals t htv sym u' hlt
      have hkey := hsig sym halpha
      have hu'v : u' ∈ vals := by
        obtain ⟨p, hp, _, hp2⟩ := transLookup_eq_some _ _ _ hlt
        exact hp2 ▸ hclosed t htv p hp
      have hu'f : u' ∈ (finalPartition store vals).flatten :=
        ((finalPartition_spec store vals).2.2.1 u').2 hu'v
      obtain ⟨k, hk⟩ :=
        blockSearch_isSome_of_mem_flatten (finalPartition store vals) u' hu'f
      have e1 : transKey store (finalPartition store vals) s sym = -1 := by
        simp [transKey, hls]
      have e2 : transKey store (finalPartition store vals) t sym = (k : Int) := by
        simp [transKey, hlt, hk]
      rw [e1, e2] at hkey
      omega
  | some u =>
    have halpha : sym ∈ sortedAlphabet store vals :=
      transLookup_some_mem_alphabet store vals s hsv sym u hls
    have hkey := hsig sym halpha
    have huv : u ∈ vals := by
      obtain ⟨p, hp, _, hp2⟩ := transLookup_eq_some _ _ _ hls
      exact hp2 ▸ hclosed s hsv p hp
    have huf : u ∈ (finalPartition store vals).flatten :=
      ((finalPartition_spec store vals).2.2.1 u).2 huv
    obtain ⟨k, hk⟩ :=
      blockSearch_isSome_of_mem_flatten (finalPartition store vals) u huf
    have e1 : transKey store (finalPartition store vals) s sym = (k : Int) := by
      simp [transKey, hls, hk]
    cases hlt : transLookup (objAt store t) sym with
    | none =>
      exfalso
      have e2 : transKey store (finalPartition store vals) t sym = -1 := by
        simp [transKey, hlt]
      rw [e1, e2] at hkey
      omega
    | some u' =>
      have hu'v : u' ∈ vals := by
        obtain ⟨p, hp, _, hp2⟩ := transLookup_eq_some _ _ _ hlt
        exact hp2 ▸ hclosed t htv p hp
      have hu'f : u' ∈ (finalPartition store vals).flatten :=
        ((finalPartition_spec store vals).2.2.1 u').2 hu'v
      obtain ⟨k', hk'⟩ :=
        blockSearch_isSome_of_mem_flatten (finalPartition store vals) u' hu'f
      have e2 : transKey store (finalPartition store vals) t sym = (k' : Int) := by
        simp [transKey, hlt, hk']
      rw [e1, e2] at hkey
      have hkk' : k' = k := by omega
      refine Or.inr ⟨u, u', k, rfl, rfl, huv, hu'v, hk, ?_⟩
      rw [hk', hkk']

theorem transLookup_mkMinState (store : List DFAState)
    (Q : List (List Nat)) (b : List Nat) (sym : String)
    (hnd : (((objAt store (b.headD 0)).transitions).map
      (fun p => p.1)).Nodup) :
    transLookup (mkMinState store Q b) sym =
      (transLookup (objAt store (b.headD 0)) sym).bind (blockSearch Q) := by
  unfold mkMinState transLookup
  exact find?_filterMap_lookup (blockSearch Q) sym _ hnd

theorem minimize_store_cases (store : List DFAState) (vals : List Nat)
    (start : Nat) :
    (minimize_dfa store vals start).store = minimizedBase store vals ∨
    ∃ j1, blockSearch (liveBlocks store vals) start = some j1 ∧
      (minimize_dfa store vals start).store =
        (minimizedBase store vals).set j1
          { objAt (minimizedBase store vals) j1 with name := "START" } := by
  simp only [minimize_dfa]
  cases hns : blockSearch (liveBlocks store vals) start with
  | none => exact Or.inl rfl
  | some j1 =>
    cases hd0 : dictGet "START" (minimizedDict0 store vals) with
    | some j0 =>
      by_cases hj01 : j0 = j1
      · simp only [if_pos hj01]
        exact Or.inl trivial
      · simp only [if_neg hj01]
        exact Or.inr ⟨j1, rfl, rfl⟩
    | none => exact Or.inr ⟨j1, rfl, rfl⟩

theorem minimize_newStart_eq (store : List DFAState) (vals : List Nat)
    (start : Nat) :
    (minimize_dfa store vals start).newStart =
      blockSearch (liveBlocks store vals) start := by
  simp only [minimize_dfa]
  cases hns : blockSearch (liveBlocks store vals) start with
  | none => rfl
  | some j1 =>
    cases hd0 : dictGet "START" (minimizedDict0 store vals) with
    | some j0 =>
      by_cases hj01 : j0 = j1
      · simp only [if_pos hj01]
      · simp only [if_neg hj01]
    | none => rfl

theorem minimize_store_fields (store : List DFAState) (vals : List Nat)
    (start : Nat) (j : Nat) (b : List Nat)
    (hj : (liveBlocks store vals)[j]? = some b) :
    (objAt (minimize_dfa store vals start).store j).is_accepting =
      (mkMinState store (liveBlocks store vals) b).is_accepting ∧
    (objAt (minimize_dfa store vals start).store j).transitions =
      (mkMinState store (liveBlocks store vals) b).transitions := by
  have hbase : objAt (minimizedBase store vals) j =
      mkMinState store (liveBlocks store vals) b :=
    objAt_map_blocks _ _ j b hj
  rcases minimize_store_cases store vals start with h | ⟨j1, _, h⟩
  · rw [h, hbase]
    exact ⟨rfl, rfl⟩
  · rw [h]
    by_cases hjj : j = j1
    · subst hjj
      have hlen : j < (minimizedBase store vals).length := by
        rw [minimizedBase, List.length_map]
        exact (List.getElem?_eq_some.1 hj).1
      rw [objAt_set_self _ _ _ hlen, hbase]
      exact ⟨rfl, rfl⟩
    · rw [objAt_set_ne _ _ _ _ hjj, hbase]
      exact ⟨rfl, rfl⟩

/-! Invariants of the minimized-states dict and of block names. -/

theorem minimizedDict0_entries (store : List DFAState) (vals : List Nat) :
    ∀ e ∈ minimizedDict0 store vals, ∃ b,
      (liveBlocks store vals)[e.2]? = some b ∧ e.1 = blockName store b := by
  have key : ∀ (l : List (Nat × List Nat)) (d : List (String × Nat)),
      (∀ p ∈ l, (liveBlocks store vals)[p.1]? = some p.2) →
      (∀ e ∈ d, ∃ b, (liveBlocks store vals)[e.2]? = some b ∧
        e.1 = blockName store b) →
      ∀ e ∈ l.foldl (fun d p => dictInsert (blockName store p.2) p.1 d) d,
        ∃ b, (liveBlocks store vals)[e.2]? = some b ∧
          e.1 = blockName store b := by
    intro l
    induction l with
    | nil => intro d _ hd; exact hd
    | cons p l ih =>
      intro d hl hd
      rw [List.foldl_cons]
      refine ih _ (fun q hq => hl q (List.mem_cons_of_mem _ hq)) ?_
      intro e he
      rcases mem_dictInsert _ _ _ e he with rfl | he'
      · exact ⟨p.2, hl p (List.mem_cons_self _ _), rfl⟩
      · exact hd e he'
  intro e he
  refine key ((liveBlocks store vals).enum) [] ?_ (by simp) e he
  intro p hp
  exact List.mem_enum_iff_getElem?.1 hp

theorem minimizedDict0_keysNodup (store : List DFAState) (vals : List Nat) :
    ((minimizedDict0 store vals).map (fun e => e.1)).Nodup := by
  have key : ∀ (l : List (Nat × List Nat)) (d : List (String × Nat)),
      (d.map (fun e => e.1)).Nodup →
      ((l.foldl (fun d p => dictInsert (blockName store p.2) p.1 d) d).map
        (fun e => e.1)).Nodup := by
    intro l
    induction l with
    | nil => intro d hd; exact hd
    | cons p l ih =>
      intro d hd
      rw [List.foldl_cons]
      exact ih _ (keysNodup_dictInsert _ _ _ hd)
  exact key _ [] (by simp)

theorem foldl_dictInsert_keys_mono (store : List DFAState) (k : String) :
    ∀ (l : List (Nat × List Nat)) (d : List (String × Nat)),
      k ∈ d.map (fun e => e.1) →
      k ∈ ((l.foldl (fun d p => dictInsert (blockName store p.2) p.1 d)
        d).map (fun e => e.1)) := by
  intro l
  induction l with
  | nil => intro d hd; exact hd
  | cons p l ih =>
    intro d hd
    rw [List.foldl_cons]
    exact ih _ ((keys_dictInsert _ _ _ _).2 (Or.inr hd))

theorem minimizedDict0_complete (store : List DFAState) (vals : List Nat)
    (j : Nat) (b : List Nat) (hj : (liveBlocks store vals)[j]? = some b) :
    blockName store b ∈ (minimizedDict0 store vals).map (fun e => e.1) := by
  have key : ∀ (l : List (Nat × List Nat)) (d : List (String × Nat)),
      (j, b) ∈ l →
      blockName store b ∈
        ((l.foldl (fun d p => dictInsert (blockName store p.2) p.1 d)
          d).map (fun e => e.1)) := by
    intro l
    induction l with
    | nil => intro d hd; simp at hd
    | cons p l ih =>
      intro d hd
      rw [List.foldl_cons]
      rcases List.mem_cons.1 hd with rfl | hd'
      · exact foldl_dictInsert_keys_mono store _ l _
          ((keys_dictInsert _ _ _ _).2 (Or.inl rfl))
      · exact ih _ hd'
  exact key _ [] (List.mem_enum_iff_getElem?.2 hj)

theorem liveBlocks_flatten_nodup (store : List DFAState) (vals : List Nat) :
    (liveBlocks store vals).flatten.Nodup := by
  rw [liveBlocks, flatten_filter_ne_nil]
  exact (finalPartition_spec store vals).2.1

theorem START_block_unique (store : List DFAState) (vals : List Nat)
    (hnames : (vals.map (fun i => (objAt store i).name)).Nodup) :
    ∀ (j j' : Nat) (b b' : List Nat), (liveBlocks store vals)[j]? = some b →
      (liveBlocks store vals)[j']? = some b' →
      blockName store b = "START" → blockName store b' = "START" →
      j = j' := by
  intro j j' b b' hj hj' hn hn'
  have hbQ : b ∈ liveBlocks store vals := List.getElem?_mem hj
  have hb'Q : b' ∈ liveBlocks store vals := List.getElem?_mem hj'
  have hbne : ¬ b = [] := ((mem_liveBlocks store vals b).1 hbQ).2
  have hb'ne : ¬ b' = [] := ((mem_liveBlocks store vals b').1 hb'Q).2
  obtain ⟨x, rfl, hx⟩ := blockName_singleton store b hbne hn
  obtain ⟨x', rfl, hx'⟩ := blockName_singleton store b' hb'ne hn'
  have hxv : x ∈ vals := mem_vals_of_mem_block store vals _
    ((mem_liveBlocks store vals _).1 hbQ).1 x (by simp)
  have hx'v : x' ∈ vals := mem_vals_of_mem_block store vals _
    ((mem_liveBlocks store vals _).1 hb'Q).1 x' (by simp)
  have hxx' : x = x' := by
    refine List.inj_on_of_nodup_map hnames hxv hx'v ?_
    rw [hx, hx']
  subst hxx'
  have h1 := blockSearch_of_getElem (liveBlocks store vals)
    (liveBlocks_flatten_nodup store vals) j [x] x hj (by simp)
  have h2 := blockSearch_of_getElem (liveBlocks store vals)
    (liveBlocks_flatten_nodup store vals) j' [x] x hj' (by simp)
  rw [h1] at h2
  simpa using h2

theorem objAt_minimizedBase_name (store : List DFAState) (vals : List Nat)
    (j : Nat) (b : List Nat) (hj : (liveBlocks store vals)[j]? = some b) :
    (objAt (minimizedBase store vals) j).name = blockName store b := by
  rw [minimizedBase,
    objAt_map_blocks (fun c => mkMinState store (liveBlocks store vals) c)
      (liveBlocks store vals) j b hj]
  rfl

theorem minimize_start_located (store : List DFAState) (vals : List Nat)
    (start : Nat) (hwf : WF store vals start) :
    ∃ j1, (minimize_dfa store vals start).newStart = some j1 ∧
      (objAt (minimize_dfa store vals start).store j1).name = "START" ∧
      clickStart (minimize_dfa store vals start) = some j1 := by
  obtain ⟨hvalid, hclosed, hstart, hndvals, hnames, hkeys⟩ := hwf
  have hstartf : start ∈ (liveBlocks store vals).flatten := by
    rw [liveBlocks, flatten_filter_ne_nil]
    exact ((finalPartition_spec store vals).2.2.1 start).2 hstart
  obtain ⟨j1, hj1⟩ := blockSearch_isSome_of_mem_flatten _ start hstartf
  obtain ⟨b1, hQj1, hsb1⟩ := blockSearch_mem _ start j1 hj1
  have hj1lt : j1 < (minimizedBase store vals).length := by
    rw [minimizedBase, List.length_map]
    exact (List.getElem?_eq_some.1 hQj1).1
  have hb1n : (objAt (minimizedBase store vals) j1).name = blockName store b1 :=
    objAt_minimizedBase_name store vals j1 b1 hQj1
  refine ⟨j1, ?_⟩
  rw [minimize_newStart_eq, hj1]
  refine ⟨rfl, ?_⟩
  cases hd0 : dictGet "START" (minimizedDict0 store vals) with
  | some j0 =>
    have hj0mem : ("START", j0) ∈ minimizedDict0 store vals :=
      dictGet_mem _ _ _ hd0
    obtain ⟨b0, hQj0, hb0name⟩ := minimizedDict0_entries store vals _ hj0mem
    by_cases hj01 : j0 = j1
    · have hm : minimize_dfa store vals start =
          ⟨minimizedBase store vals, minimizedDict0 store vals, some j1⟩ := by
        simp only [minimize_dfa, hj1, hd0, if_pos hj01]
      rw [hj01] at hQj0
      have hb01 : b0 = b1 := by
        rw [hQj1] at hQj0
        simpa using hQj0.symm
      have hname1 : (objAt (minimize_dfa store vals start).store j1).name =
          "START" := by
        rw [hm, hb1n, ← hb01, ← hb0name]
      refine ⟨hname1, ?_⟩
      have hfind :
          (((minimize_dfa store vals start).dict.map (fun e => e.2)).find?
            (fun j =>
              (objAt (minimize_dfa store vals start).store j).name
                = "START")) = some j1 := by
        refine find?_eq_some_of_unique _ _ j1 ?_ ?_ ?_
        · rw [hm]
          refine List.mem_map.2 ⟨("START", j1), ?_, rfl⟩
          rw [← hj01]
          exact hj0mem
        · simpa using hname1
        · intro y hy hpy
          rw [hm] at hy
          simp only [decide_eq_true_eq] at hpy
          obtain ⟨e, he, he2⟩ := List.mem_map.1 hy
          obtain ⟨by', hQy, hyname⟩ := minimizedDict0_entries store vals e he
          rw [he2] at hQy
          have : blockName store by' = "START" := by
            rw [hm] at hpy
            rw [← objAt_minimizedBase_name store vals y by' hQy, hpy]
          refine START_block_unique store vals hnames y j1 by' b1 hQy hQj1
            this ?_
          rw [← hb01, ← hb0name]
      rw [clickStart, hfind]
    · have hm : minimize_dfa store vals start =
          ⟨(minimizedBase store vals).set j1
            { objAt (minimizedBase store vals) j1 with name := "START" },
           dictDel (objAt (minimizedBase store vals) j1).name
             (dictInsert "START" j1 (minimizedDict0 store vals)),
           some j1⟩ := by
        simp only [minimize_dfa, hj1, hd0, if_neg hj01]
      have hb1ne : ¬ blockName store b1 = "START" := by
        intro h
        exact hj01 (START_block_unique store vals hnames j0 j1 b0 b1 hQj0
          hQj1 hb0name.symm h)
      have hname1 : (objAt (minimize_dfa store vals start).store j1).name =
          "START" := by
        rw [hm]
        show (objAt ((minimizedBase store vals).set j1 _) j1).name = "START"
        rw [objAt_set_self _ _ _ hj1lt]
      refine ⟨hname1, ?_⟩
      have hfind :
          (((minimize_dfa store vals start).dict.map (fun e => e.2)).find?
            (fun j =>
              (objAt (minimize_dfa store vals start).store j).name
                = "START")) = some j1 := by
        refine find?_eq_some_of_unique _ _ j1 ?_ ?_ ?_
        · rw [hm]
          refine List.mem_map.2 ⟨("START", j1), ?_, rfl⟩
          refine mem_dictDel_of_ne _ _ _ ?_ ?_
          · exact dictGet_mem _ _ _ (dictGet_dictInsert_self "START" j1 _)
          · show ¬ "START" = (objAt (minimizedBase store vals) j1).name
            rw [hb1n]
            exact fun h => hb1ne h.symm
        · simpa using hname1
        · intro y hy hpy
          rw [hm] at hy
          simp only [decide_eq_true_eq] at hpy
          obtain ⟨e, he, he2⟩ := List.mem_map.1 hy
          have he' := mem_dictDel _ _ _ he
          rcases mem_dictInsert_of_keysNodup _ _ _
            (minimizedDict0_keysNodup store vals) e he' with rfl | ⟨hed0, hene⟩
          · simpa using he2.symm
          · by_cases hyj : y = j1
            · exact hyj
            · exfalso
              obtain ⟨by', hQy, hyname⟩ :=
                minimizedDict0_entries store vals e hed0
              rw [he2] at hQy
              have hynm : (objAt (minimize_dfa store vals start).store y).name
                  = blockName store by' := by
                rw [hm]
                show (objAt ((minimizedBase store vals).set j1 _) y).name = _
                rw [objAt_set_ne _ _ _ _ hyj]
                exact objAt_minimizedBase_name store vals y by' hQy
              rw [hm] at hynm
              rw [hm] at hpy
              rw [hpy] at hynm
              exact hene (by rw [hyname, ← hynm])
      rw [clickStart, hfind]
  | none =>
    have hm : minimize_dfa store vals start =
        ⟨(minimizedBase store vals).set j1
          { objAt (minimizedBase store vals) j1 with name := "START" },
         minimizedDict0 store vals ++ [("START", j1)],
         some j1⟩ := by
      simp only [minimize_dfa, hj1, hd0]
    have hname1 : (objAt (minimize_dfa store vals start).store j1).name =
        "START" := by
      rw [hm]
      show (objAt ((minimizedBase store vals).set j1 _) j1).name = "START"
      rw [objAt_set_self _ _ _ hj1lt]
    refine ⟨hname1, ?_⟩
    have hfind :
        (((minimize_dfa store vals start).dict.map (fun e => e.2)).find?
          (fun j =>
            (objAt (minimize_dfa store vals start).store j).name
              = "START")) = some j1 := by
      refine find?_eq_some_of_unique _ _ j1 ?_ ?_ ?_
      · rw [hm]
        exact List.mem_map.2 ⟨("START", j1), by simp, rfl⟩
      · simpa using hname1
      · intro y hy hpy
        rw [hm] at hy
        simp only [decide_eq_true_eq] at hpy
        obtain ⟨e, he, he2⟩ := List.mem_map.1 hy
        rcases List.mem_append.1 he with hed0 | hlast
        · by_cases hyj : y = j1
          · exact hyj
          · exfalso
            obtain ⟨by', hQy, hyname⟩ :=
              minimizedDict0_entries store vals e hed0
            rw [he2] at hQy
            have hynm : (objAt (minimize_dfa store vals start).store y).name
                = blockName store by' := by
              rw [hm]
              show (objAt ((minimizedBase store vals).set j1 _) y).name = _
              rw [objAt_set_ne _ _ _ _ hyj]
              exact objAt_minimizedBase_name store vals y by' hQy
            rw [hm] at hynm
            rw [hm] at hpy
            rw [hpy] at hynm
            have : blockName store by' ∈
                (minimizedDict0 store vals).map (fun e => e.1) :=
              minimizedDict0_complete store vals y by' hQy
            rw [← hynm] at this
            obtain ⟨v, hv⟩ := dictGet_isSome_of_mem_keys _ _ this
            rw [hd0] at hv
            simp at hv
        · obtain rfl : e = ("START", j1) := by simpa using hlast
          simpa using he2.symm
    rw [clickStart, hfind]

/-! The step-level correspondence between an automaton and its minimized
form. -/

theorem minimize_step_pair (store : List DFAState) (vals : List Nat)
    (start : Nat) (hwf : WF store vals start) (i j : Nat) (_hi : i ∈ vals)
    (hij : blockSearch (liveBlocks store vals) i = some j) (sym : String) :
    (transLookup (objAt store i) sym = none ∧
      transLookup (objAt (minimize_dfa store vals start).store j) sym
        = none) ∨
    (∃ u j', transLookup (objAt store i) sym = some u ∧
      transLookup (objAt (minimize_dfa store vals start).store j) sym
        = some j' ∧
      u ∈ vals ∧ blockSearch (liveBlocks store vals) u = some j') := by
  obtain ⟨hvalid, hclosed, hstart, hndvals, hnames, hkeys⟩ := hwf
  obtain ⟨b, hQj, hib⟩ := blockSearch_mem _ i j hij
  have hbQ : b ∈ liveBlocks store vals := List.getElem?_mem hQj
  have hbPf : b ∈ finalPartition store vals ∧ ¬ b = [] :=
    (mem_liveBlocks store vals b).1 hbQ
  have hrep : b.headD 0 ∈ b := headD_mem b hbPf.2 0
  have hrepv : b.headD 0 ∈ vals :=
    mem_vals_of_mem_block store vals b hbPf.1 _ hrep
  have hmt : transLookup (objAt (minimize_dfa store vals start).store j) sym =
      (transLookup (objAt store (b.headD 0)) sym).bind
        (blockSearch (liveBlocks store vals)) := by
    have hf := (minimize_store_fields store vals start j b hQj).2
    have : transLookup (objAt (minimize_dfa store vals start).store j) sym =
        transLookup (mkMinState store (liveBlocks store vals) b) sym := by
      unfold transLookup
      rw [hf]
    rw [this]
    exact transLookup_mkMinState store _ b sym (hkeys _ hrepv)
  rcases fix_trans_agree store vals hclosed b hbPf.1 i hib (b.headD 0) hrep
      sym with ⟨h1, h2⟩ | ⟨u, u', k, h1, h2, huv, hu'v, hk, hk'⟩
  · refine Or.inl ⟨h1, ?_⟩
    rw [hmt, h2]
    rfl
  · -- both targets lie in the same block of the final partition
    obtain ⟨bk, hPk, hubk⟩ := blockSearch_mem _ u k hk
    obtain ⟨bk', hPk', hu'bk⟩ := blockSearch_mem _ u' k hk'
    have hbk : bk' = bk := by
      rw [hPk] at hPk'
      simpa using hPk'.symm
    rw [hbk] at hu'bk
    have hbkne : ¬ bk = [] := fun h => by rw [h] at hubk; simp at hubk
    have hbkQ : bk ∈ liveBlocks store vals :=
      (mem_liveBlocks store vals bk).2 ⟨List.getElem?_mem hPk, hbkne⟩
    obtain ⟨jdx, hjdx, hjeq⟩ := List.getElem_of_mem hbkQ
    have hQjdx : (liveBlocks store vals)[jdx]? = some bk := by
      rw [List.getElem?_eq_getElem hjdx, hjeq]
    have hbsu : blockSearch (liveBlocks store vals) u = some jdx :=
      blockSearch_of_getElem _ (liveBlocks_flatten_nodup store vals)
        jdx bk u hQjdx hubk
    have hbsu' : blockSearch (liveBlocks store vals) u' = some jdx :=
      blockSearch_of_getElem _ (liveBlocks_flatten_nodup store vals)
        jdx bk u' hQjdx hu'bk
    refine Or.inr ⟨u, jdx, h1, ?_, huv, hbsu⟩
    rw [hmt, h2]
    simpa using hbsu'

theorem minimize_run_rel (store : List DFAState) (vals : List Nat)
    (start : Nat) (hwf : WF store vals start) (j1 : Nat)
    (hj1 : blockSearch (liveBlocks store vals) start = some j1) :
    ∀ (w : List String) (c d : Option Nat),
      ((c = none ∧ d = none) ∨ (∃ i j, c = some i ∧ d = some j ∧ i ∈ vals ∧
        blockSearch (liveBlocks store vals) i = some j)) →
      ((runSteps store start c w = none ∧
        runSteps (minimize_dfa store vals start).store j1 d w = none) ∨
       (∃ i j, runSteps store start c w = some i ∧
        runSteps (minimize_dfa store vals start).store j1 d w = some j ∧
        i ∈ vals ∧ blockSearch (liveBlocks store vals) i = some j)) := by
  intro w
  induction w with
  | nil =>
    intro c d hrel
    simpa [runSteps] using hrel
  | cons sym w ih =>
    intro c d hrel
    simp only [runSteps]
    refine ih _ _ ?_
    have hpair : ∃ i0 j0, c.getD start = i0 ∧ d.getD j1 = j0 ∧ i0 ∈ vals ∧
        blockSearch (liveBlocks store vals) i0 = some j0 := by
      rcases hrel with ⟨rfl, rfl⟩ | ⟨i, j, rfl, rfl, hiv, hbs⟩
      · exact ⟨start, j1, rfl, rfl, hwf.2.2.1, hj1⟩
      · exact ⟨i, j, rfl, rfl, hiv, hbs⟩
    obtain ⟨i0, j0, hc, hd, hi0, hbs0⟩ := hpair
    rw [stepOnce, stepOnce, hc, hd]
    rcases minimize_step_pair store vals start hwf i0 j0 hi0 hbs0 sym with
      ⟨h1, h2⟩ | ⟨u, j', h1, h2, huv, hbsu⟩
    · rw [h1, h2]
      exact Or.inl ⟨rfl, rfl⟩
    · rw [h1, h2]
      exact Or.inr ⟨u, j', rfl, rfl, huv, hbsu⟩

theorem minimize_accept_rel (store : List DFAState) (vals : List Nat)
    (start : Nat) (c d : Option Nat)
    (hrel : (c = none ∧ d = none) ∨ (∃ i j, c = some i ∧ d = some j ∧
      i ∈ vals ∧ blockSearch (liveBlocks store vals) i = some j)) :
    acceptOf (minimize_dfa store vals start).store d = acceptOf store c := by
  rcases hrel with ⟨rfl, rfl⟩ | ⟨i, j, rfl, rfl, hiv, hbs⟩
  · rfl
  · obtain ⟨b, hQj, hib⟩ := blockSearch_mem _ i j hbs
    have hbQ : b ∈ liveBlocks store vals := List.getElem?_mem hQj
    have hbPf : b ∈ finalPartition store vals ∧ ¬ b = [] :=
      (mem_liveBlocks store vals b).1 hbQ
    have hacc := (minimize_store_fields store vals start j b hQj).1
    show (objAt (minimize_dfa store vals start).store j).is_accepting =
      (objAt store i).is_accepting
    rw [hacc]
    show b.any (fun s => (objAt store s).is_accepting) = _
    exact any_eq_of_homog _ b
      (fun s hs t ht =>
        (finalPartition_spec store vals).2.2.2.2 b hbPf.1 s hs t ht) i hib

/-- Claim C1: for every well-formed automaton, simulating any finite symbol
sequence on the minimized automaton (installed by the minimize button, whose
handler locates the new start state) reports the same accept/reject verdict
as simulating it on the original automaton: minimization preserves the
accepted language, including the code's behavior of restarting from the
start state after a missing transition. -/
theorem minimize_preserves_acceptance (store : List DFAState)
    (vals : List Nat) (start : Nat) (w : List String)
    (hwf : WF store vals start) :
    ¬ clickStart (minimize_dfa store vals start) = none ∧
    simAcceptMin store vals start w = simAccept store start w := by
  obtain ⟨j1, hns, hname, hclick⟩ :=
    minimize_start_located store vals start hwf
  have hj1 : blockSearch (liveBlocks store vals) start = some j1 := by
    rw [← minimize_newStart_eq]
    exact hns
  constructor
  · rw [hclick]
    simp
  · show simAccept (minimize_dfa store vals start).store
      ((clickStart (minimize_dfa store vals start)).getD 0) w =
        simAccept store start w
    have hgd : (clickStart (minimize_dfa store vals start)).getD 0 = j1 := by
      rw [hclick]
      rfl
    rw [hgd, simAccept, simAccept]
    exact minimize_accept_rel store vals start _ _
      (minimize_run_rel store vals start hwf j1 hj1 w (some start) (some j1)
        (Or.inr ⟨start, j1, rfl, rfl, hwf.2.2.1, hj1⟩))

/-- Witness for `minimize_preserves_acceptance`: Scenario A of the spec,
where the minimizer merges the two accepting states and the simulation of
`["a"]` accepts on both sides. -/
theorem minimize_preserves_acceptance_witness :
    (¬ clickStart (minimize_dfa exStoreA [0, 1, 2] 0) = none ∧
      simAcceptMin exStoreA [0, 1, 2] 0 ["a"] = simAccept exStoreA 0 ["a"]) ∧
    simAccept exStoreA 0 ["a"] = true :=
  ⟨minimize_preserves_acceptance exStoreA [0, 1, 2] 0 ["a"] (by decide),
   by decide⟩

/-- Claim C6 (counterexample): on the automaton with non-accepting states
`START` and `D` (which minimization merges into one block generated as
`"D, START"`) and accepting `X`, the minimizer renames the merged block's
state object to the reserved literal `"START"`, and the button handler then
finds the start state by scanning for that magic string — contradicting the
claim that no reserved-name renaming or magic-string search happens. -/
theorem minimizer_renames_start_cex :
    blockName exStore3 (((liveBlocks exStore3 [0, 1, 2])[0]?).getD [])
      = "D, START" ∧
    (objAt (minimizedBase exStore3 [0, 1, 2]) 0).name = "D, START" ∧
    (objAt (minimize_dfa exStore3 [0, 1, 2] 0).store 0).name = "START" ∧
    clickStart (minimize_dfa exStore3 [0, 1, 2] 0) = some 0 := by decide

/-- Claim C6 (amended): the minimizer does rename based on the reserved name:
for every well-formed automaton it returns a dict in which the minimized
start state's object is named by the literal `"START"` (renaming it when its
generated block name differs), and the button handler identifies the start
state by scanning the dict values for a state named `"START"` — this scan
provably finds exactly the minimized start state's object. -/
theorem minimizer_start_renaming_behavior (store : List DFAState)
    (vals : List Nat) (start : Nat) (hwf : WF store vals start) :
    ∃ j1, (minimize_dfa store vals start).newStart = some j1 ∧
      (objAt (minimize_dfa store vals start).store j1).name = "START" ∧
      clickStart (minimize_dfa store vals start) = some j1 :=
  minimize_start_located store vals start hwf

/-- Witness for `minimizer_start_renaming_behavior` on `exStore3`. -/
theorem minimizer_start_renaming_behavior_witness :
    ∃ j1, (minimize_dfa exStore3 [0, 1, 2] 0).newStart = some j1 ∧
      (objAt (minimize_dfa exStore3 [0, 1, 2] 0).store j1).name = "START" ∧
      clickStart (minimize_dfa exStore3 [0, 1, 2] 0) = some j1 :=
  minimizer_start_renaming_behavior exStore3 [0, 1, 2] 0 (by decide)

/-! Counting lemmas for the state-dict sizes of repeated minimization. -/

theorem minimizedDict0_length_le (store : List DFAState) (vals : List Nat) :
    (minimizedDict0 store vals).length ≤ (liveBlocks store vals).length := by
  have key : ∀ (l : List (Nat × List Nat)) (d : List (String × Nat)),
      (l.foldl (fun d p => dictInsert (blockName store p.2) p.1 d) d).length ≤
        d.length + l.length := by
    intro l
    induction l with
    | nil => intro d; simp
    | cons p l ih =>
      intro d
      rw [List.foldl_cons]
      refine le_trans (ih _) ?_
      have := length_dictInsert_le (blockName store p.2) p.1 d
      simp only [List.length_cons]
      omega
  have h := key ((liveBlocks store vals).enum) []
  rw [List.enum_length] at h
  simpa using h

theorem stateCount_minimize_le (store : List DFAState) (vals : List Nat)
    (start : Nat) :
    stateCount (minimize_dfa store vals start) ≤
      (liveBlocks store vals).length + 1 ∧
    (¬ dictGet "START" (minimizedDict0 store vals) = none →
      stateCount (minimize_dfa store vals start) ≤
        (liveBlocks store vals).length) := by
  have hd0 := minimizedDict0_length_le store vals
  simp only [stateCount, minimize_dfa]
  cases hns : blockSearch (liveBlocks store vals) start with
  | none =>
    refine ⟨?_, fun _ => ?_⟩ <;>
      · show (minimizedDict0 store vals).length ≤ _
        omega
  | some j1 =>
    cases hd : dictGet "START" (minimizedDict0 store vals) with
    | some j0 =>
      have hkmem : "START" ∈ (minimizedDict0 store vals).map (fun e => e.1) :=
        List.mem_map.2 ⟨("START", j0), dictGet_mem _ _ _ hd, rfl⟩
      have hins := length_dictInsert_of_mem "START" j1 _ hkmem
      by_cases hj01 : j0 = j1
      · simp only [if_pos hj01]
        refine ⟨?_, fun _ => ?_⟩ <;>
          · show (minimizedDict0 store vals).length ≤ _
            omega
      · simp only [if_neg hj01]
        have hdel := length_dictDel_le
          (objAt (minimizedBase store vals) j1).name
          (dictInsert "START" j1 (minimizedDict0 store vals))
        refine ⟨?_, fun _ => ?_⟩ <;>
          · show (dictDel (objAt (minimizedBase store vals) j1).name
              (dictInsert "START" j1 (minimizedDict0 store vals))).length ≤ _
            omega
    | none =>
      refine ⟨?_, fun h => absurd rfl h⟩
      show (minimizedDict0 store vals ++ [("START", j1)]).length ≤ _
      rw [List.length_append, List.length_singleton]
      omega

theorem length_le_flatten_of_nonempty :
    ∀ P : List (List Nat), (∀ b ∈ P, ¬ b = []) →
      P.length ≤ P.flatten.length := by
  intro P
  induction P with
  | nil => simp
  | cons b P ih =>
    intro h
    have hb : 1 ≤ b.length :=
      List.length_pos.2 (h b (List.mem_cons_self _ _))
    have := ih (fun c hc => h c (List.mem_cons_of_mem _ hc))
    simp only [List.length_cons, List.flatten_cons, List.length_append]
    omega

theorem length_lt_flatten_of_big :
    ∀ P : List (List Nat), (∀ b ∈ P, ¬ b = []) →
      ∀ b0 ∈ P, 2 ≤ b0.length → P.length + 1 ≤ P.flatten.length := by
  intro P
  induction P with
  | nil => intro _ b0 hb0; simp at hb0
  | cons b P ih =>
    intro h b0 hb0 hlen
    simp only [List.length_cons, List.flatten_cons, List.length_append]
    rcases List.mem_cons.1 hb0 with rfl | hb0'
    · have := length_le_flatten_of_nonempty P
        (fun c hc => h c (List.mem_cons_of_mem _ hc))
      omega
    · have h1 := ih (fun c hc => h c (List.mem_cons_of_mem _ hc)) b0 hb0' hlen
      have hb : 1 ≤ b.length :=
        List.length_pos.2 (h b (List.mem_cons_self _ _))
      omega

theorem liveBlocks_flatten_length (store : List DFAState) (vals : List Nat) :
    (liveBlocks store vals).flatten.length = vals.dedup.length := by
  have hnd := liveBlocks_flatten_nodup store vals
  have hperm : List.Perm (liveBlocks store vals).flatten vals.dedup := by
    refine (List.perm_ext_iff_of_nodup hnd (List.nodup_dedup vals)).2 ?_
    intro a
    rw [List.mem_dedup, liveBlocks, flatten_filter_ne_nil]
    exact (finalPartition_spec store vals).2.2.1 a
  exact hperm.length_eq

theorem liveBlocks_all_nonempty (store : List DFAState) (vals : List Nat) :
    ∀ b ∈ liveBlocks store vals, ¬ b = [] :=
  fun b hb => ((mem_liveBlocks store vals b).1 hb).2

theorem blockName_single (store : List DFAState) (x : Nat) :
    blockName store [x] = (objAt store x).name := rfl

theorem clickStart_mem (m : MinResult) (j : Nat)
    (h : clickStart m = some j) : j ∈ m.dict.map (fun e => e.2) := by
  unfold clickStart at h
  cases hf : (m.dict.map (fun e => e.2)).find?
      (fun j => (objAt m.store j).name = "START") with
  | some j' =>
    rw [hf] at h
    obtain rfl : j' = j := by simpa using h
    exact List.mem_of_find?_eq_some hf
  | none =>
    rw [hf] at h
    exact List.mem_of_mem_head? h

/-- Claim C5 (counterexample): on the automaton whose two non-accepting
states merge, the first minimization's dict has 3 entries (the renamed start
object appears both under its generated key and under the appended key
`"START"`), while minimizing the result again yields 2 entries, so the
claimed inequality and equality both fail. -/
theorem minimize_state_count_not_idempotent_cex :
    stateCount (minimize_dfa exStore3 [0, 1, 2] 0) = 3 ∧
    stateCount (minimizeAgain exStore3 [0, 1, 2] 0) = 2 ∧
    ¬ (stateCount (minimize_dfa exStore3 [0, 1, 2] 0) ≤
        stateCount (minimizeAgain exStore3 [0, 1, 2] 0) ∧
      stateCount (minimizeAgain exStore3 [0, 1, 2] 0) =
        stateCount (minimize_dfa exStore3 [0, 1, 2] 0)) := by decide

/-- Claim C5 (amended): the state count is not idempotent in the claimed
direction, because the `"START"` renaming can leave an alias entry in the
first minimization's dict; what holds for every well-formed automaton is the
reverse inequality: minimizing a second time (through the button handler)
never increases the state-dict size, and can strictly shrink it by
collapsing the alias. -/
theorem minimize_twice_state_count_le (store : List DFAState)
    (vals : List Nat) (start : Nat) (hwf : WF store vals start) :
    stateCount (minimizeAgain store vals start) ≤
      stateCount (minimize_dfa store vals start) := by
  obtain ⟨j1, hns, hname, hclick⟩ :=
    minimize_start_located store vals start hwf
  set m := minimize_dfa store vals start with hm
  set vals2 := m.dict.map (fun e => e.2) with hvals2
  have hsc2 : stateCount (minimizeAgain store vals start) =
      stateCount (minimize_dfa m.store vals2 ((clickStart m).getD 0)) := rfl
  have hQ2 := stateCount_minimize_le m.store vals2 ((clickStart m).getD 0)
  have hQ2flat := liveBlocks_flatten_length m.store vals2
  have hdedup : vals2.dedup.length ≤ vals2.length :=
    (List.dedup_sublist vals2).length_le
  have hvlen : vals2.length = stateCount m := by
    rw [hvals2, List.length_map]
    rfl
  have hQ2len : (liveBlocks m.store vals2).length ≤ vals2.dedup.length := by
    rw [← hQ2flat]
    exact length_le_flatten_of_nonempty _ (liveBlocks_all_nonempty m.store vals2)
  by_cases helif : dictGet "START" (minimizedDict0 m.store vals2) = none
  · have hj1v : j1 ∈ vals2 := clickStart_mem m j1 hclick
    have hj1f : j1 ∈ (liveBlocks m.store vals2).flatten := by
      rw [liveBlocks, flatten_filter_ne_nil]
      exact ((finalPartition_spec m.store vals2).2.2.1 j1).2 hj1v
    obtain ⟨b2, hb2Q, hj1b2⟩ := List.mem_flatten.1 hj1f
    have hb2ne : ¬ b2 = [] := liveBlocks_all_nonempty m.store vals2 b2 hb2Q
    have hbig : 2 ≤ b2.length := by
      match b2, hb2ne, hj1b2, hb2Q with
      | [], h, _, _ => exact absurd rfl h
      | [x], _, hj1b2, hb2Q =>
        exfalso
        have hx : x = j1 := by
          have := hj1b2
          simp at this
          exact this.symm
        obtain ⟨idx, hidxlt, hidx⟩ := List.getElem_of_mem hb2Q
        have hidx' : (liveBlocks m.store vals2)[idx]? = some [x] := by
          rw [List.getElem?_eq_getElem hidxlt, hidx]
        have hmemk : blockName m.store [x] ∈
            (minimizedDict0 m.store vals2).map (fun e => e.1) :=
          minimizedDict0_complete m.store vals2 idx [x] hidx'
        rw [blockName_single, hx, hname] at hmemk
        obtain ⟨v, hv⟩ := dictGet_isSome_of_mem_keys _ _ hmemk
        rw [helif] at hv
        simp at hv
      | x :: y :: b2'', _, _, _ => simp
    have hstrict : (liveBlocks m.store vals2).length + 1 ≤
        vals2.dedup.length := by
      rw [← hQ2flat]
      exact length_lt_flatten_of_big _
        (liveBlocks_all_nonempty m.store vals2) b2 hb2Q hbig
    have h1 := hQ2.1
    rw [hsc2]
    omega
  · have h2 := hQ2.2 helif
    rw [hsc2]
    omega

/-- Witness for `minimize_twice_state_count_le` on `exStore3`, where the
drop is strict (3 entries down to 2). -/
theorem minimize_twice_state_count_le_witness :
    stateCount (minimizeAgain exStore3 [0, 1, 2] 0) ≤
      stateCount (minimize_dfa exStore3 [0, 1, 2] 0) :=
  minimize_twice_state_count_le exStore3 [0, 1, 2] 0 (by decide)
